import Mathlib

/-!
Verification of the wpdb-geodatabase-processor streaming pipeline
(preprocessor.js, tile-generator.js, file-inspector.js).

The JavaScript sources are embedded shallowly:

* JSON documents are modelled by the mutual inductive `Json`; numbers are
  finite decimals (mantissa, decimal exponent), matching the exact decimal
  texts the pipeline reads and writes (IEEE float rounding is idealized away).
* `JSON.stringify` on the restricted value class the pipeline handles is
  modelled by `ser`; `JSON.parse` by the fuel-indexed recursive-descent
  parser `parseVal` (the pipeline only ever feeds it compact single-line
  units, so whitespace skipping and string escapes are not modelled; the
  wellformedness predicate `wfJ` confines values to that class).
* The streaming extractor of `MemorySafeProcessor.processRegion` is the
  per-line fold `processLine` over `ProcState`; chunk files are modelled as
  the in-order list `ProcState.chunks` (the disk is a value store).
* The `FileInspector.inspectRegion` scanner (the only variant carrying the
  10 MB accumulator guard) is `inspLine` over `InspState`.
* The `FeatureProcessor` chunk writer of the third script is `FP.addFeature`
  and `FP.finish`.
* `TileGenerator.calculateBounds` / `createSpatialIndex` / `boundsIntersect`
  are modelled over `XQ`, rationals extended with the JavaScript values
  Infinity, -Infinity and NaN that Math.min / Math.max produce on empty or
  non-numeric input.
-/

namespace GeoProc

/-- Whitespace test used by the model of String.prototype.trim. -/
def isWs (c : Char) : Bool := c = ' ' || c = '\t' || c = '\r' || c = '\x0c' || c = '\x0b'

/-- Model of JavaScript String.prototype.trim on a line. -/
def jsTrim (l : List Char) : List Char :=
  ((l.dropWhile isWs).reverse.dropWhile isWs).reverse

/-- startsWith needle hay: hay begins with needle. -/
def startsW : List Char → List Char → Bool
  | [], _ => true
  | _ :: _, [] => false
  | a :: as, b :: bs => a = b && startsW as bs

/-- containsSub needle hay: model of String.prototype.includes. -/
def containsSub (needle : List Char) : List Char → Bool
  | [] => needle.isEmpty
  | c :: rest => startsW needle (c :: rest) || containsSub needle rest

/-- Decimal digit test, model of the character classes the JSON number
grammar uses. -/
def isDig (c : Char) : Bool := 48 ≤ c.toNat && c.toNat ≤ 57

/-- Numeric value of a decimal digit character. -/
def digitVal (c : Char) : Nat := c.toNat - 48

/-- Character for a decimal digit. -/
def dChar (d : Nat) : Char := Char.ofNat (48 + d)

mutual
/-- JSON values handled by the pipeline. A number is a finite decimal
mantissa / 10 ^ exponent, the exact content of the decimal literals the
pipeline reads and writes. -/
inductive Json where
  | null : Json
  | bool (b : Bool) : Json
  | num (m : Int) (k : Nat) : Json
  | str (s : List Char) : Json
  | arr (xs : JsonList) : Json
  | obj (fs : JsonFields) : Json
deriving DecidableEq

/-- Elements of a JSON array. -/
inductive JsonList where
  | nil : JsonList
  | cons (hd : Json) (tl : JsonList) : JsonList
deriving DecidableEq

/-- Fields of a JSON object, in document order; duplicate keys allowed
(JSON.parse keeps the last occurrence, see jsGetProp). -/
inductive JsonFields where
  | nil : JsonFields
  | cons (key : List Char) (val : Json) (tl : JsonFields) : JsonFields
deriving DecidableEq
end

namespace Json

/-- Property lookup on a parsed JSON value, modelling obj[key]: the last
occurrence wins (as JSON.parse builds the object), absent key or non-object
receiver gives undefined (none). The null receiver never occurs at the
call sites that use this helper on possibly-missing values. -/
def lookupLast : JsonFields → List Char → Option Json
  | .nil, _ => none
  | .cons k v tl, key =>
      match lookupLast tl key with
      | some w => some w
      | none => if k = key then some v else none

/-- obj.key access: undefined is none. -/
def jsGetProp : Json → List Char → Option Json
  | .obj fs, key => lookupLast fs key
  | _, _ => none

/-- JavaScript truthiness of a JSON value. -/
def jsTruthy : Json → Bool
  | .null => false
  | .bool b => b
  | .num m _ => m ≠ 0
  | .str s => !s.isEmpty
  | .arr _ => true
  | .obj _ => true

/-- Is the value a JSON object. -/
def isObjJ : Json → Bool
  | .obj _ => true
  | _ => false

/-- Is the value a JSON array. -/
def isArrJ : Json → Bool
  | .arr _ => true
  | _ => false

end Json

/-- Little-endian decimal digits with an explicit fuel bound (so that the
kernel can evaluate it, unlike Nat.digits). -/
def digitsLE : Nat → Nat → List Nat
  | 0, _ => []
  | fuel + 1, n => if n = 0 then [] else n % 10 :: digitsLE fuel (n / 10)

/-- Big-endian decimal digits of a natural number (empty for 0). -/
def digitsBE (n : Nat) : List Nat := (digitsLE n n).reverse

/-- Pad a big-endian digit list with leading zeros so that it has more
than k digits (so a decimal point k places from the right leaves a
nonempty integer part). -/
def padDigits (k : Nat) (ds : List Nat) : List Nat :=
  List.replicate (k + 1 - ds.length) 0 ++ ds

/-- Unsigned decimal text of n / 10 ^ k: integer digits, then a point and
exactly k fraction digits when k is positive. -/
def serNumBody (n k : Nat) : List Char :=
  let ds := padDigits k (digitsBE n)
  let ip := ds.take (ds.length - k)
  let fp := ds.drop (ds.length - k)
  ip.map dChar ++ (if k = 0 then [] else '.' :: fp.map dChar)

/-- Decimal text of the number m / 10 ^ k, as the pipeline serializes it. -/
def serNum (m : Int) (k : Nat) : List Char :=
  (if m < 0 then ['-'] else []) ++ serNumBody m.natAbs k

mutual
/-- Model of JSON.stringify (compact form) on the value class the pipeline
writes: no escapes are needed because wellformed strings (wfJ) exclude
quote, backslash and brace characters. -/
def ser : Json → List Char
  | .null => ['n', 'u', 'l', 'l']
  | .bool b => if b then ['t', 'r', 'u', 'e'] else ['f', 'a', 'l', 's', 'e']
  | .num m k => serNum m k
  | .str s => '"' :: s ++ ['"']
  | .arr xs => '[' :: serItems xs ++ [']']
  | .obj fs => '{' :: serFields fs ++ ['}']

/-- Serialized contents of an array. -/
def serItems : JsonList → List Char
  | .nil => []
  | .cons x tl => ser x ++ serITail tl

/-- Comma-prefixed serialized tail of an array. -/
def serITail : JsonList → List Char
  | .nil => []
  | .cons x tl => ',' :: ser x ++ serITail tl

/-- Serialized contents of an object. -/
def serFields : JsonFields → List Char
  | .nil => []
  | .cons k v tl => ('"' :: k ++ '"' :: ':' :: ser v) ++ serFTail tl

/-- Comma-prefixed serialized tail of an object. -/
def serFTail : JsonFields → List Char
  | .nil => []
  | .cons k v tl => ',' :: ('"' :: k ++ '"' :: ':' :: ser v) ++ serFTail tl
end

/-- One serialized object field. -/
def serField (k : List Char) (v : Json) : List Char :=
  '"' :: k ++ '"' :: ':' :: ser v

theorem serFields_cons (k : List Char) (v : Json) (tl : JsonFields) :
    serFields (.cons k v tl) = serField k v ++ serFTail tl := rfl

theorem serFTail_cons (k : List Char) (v : Json) (tl : JsonFields) :
    serFTail (.cons k v tl) = ',' :: serField k v ++ serFTail tl := rfl

/-- Characters allowed inside wellformed JSON strings and keys: anything
except the quote, backslash and brace characters (JSON.stringify would
escape the first two, which the model does not support; braces inside
strings would corrupt the line scanner, the documented limitation of the
source). -/
def okChar (c : Char) : Bool := c ≠ '"' && c ≠ '\\' && c ≠ '{' && c ≠ '}'

/-- Digit run of a JSON number: accumulates leading decimal digits onto acc,
returning (value, number of digits consumed, rest). -/
def parseDigits : List Char → Nat → Nat → Nat × Nat × List Char
  | [], acc, n => (acc, n, [])
  | c :: cs, acc, n =>
      if isDig c then parseDigits cs (10 * acc + digitVal c) (n + 1)
      else (acc, n, c :: cs)

/-- Does the list start with the given character (parser head test). -/
def headIsP (c : Char) : List Char → Bool
  | [] => false
  | d :: _ => d = c

/-- JSON number grammar after the optional minus sign: integer digits and an
optional fraction, producing the mantissa / exponent form. -/
def parseNumber (neg : Bool) (cs : List Char) : Option (Json × List Char) :=
  let (ip, n, rest) := parseDigits cs 0 0
  if n = 0 then none
  else if headIsP '.' rest then
    let (v, k, rest3) := parseDigits rest.tail ip 0
    if k = 0 then none
    else some (.num (if neg then -(v : Int) else (v : Int)) k, rest3)
  else some (.num (if neg then -(ip : Int) else (ip : Int)) 0, rest)

/-- Body of a JSON string after the opening quote: everything up to the next
quote (the wellformed value class carries no escapes). -/
def parseStrBody : List Char → Option (List Char × List Char)
  | [] => none
  | c :: cs =>
      if c = '"' then some ([], cs)
      else (parseStrBody cs).map fun p => (c :: p.1, p.2)

mutual
/-- Model of JSON.parse on one compact value: recursive descent with a fuel
bound (any fuel above the syntactic size works, see parse_ser). -/
def parseVal : Nat → List Char → Option (Json × List Char)
  | 0, _ => none
  | _ + 1, [] => none
  | fuel + 1, c :: rest =>
      if c = 'n' then
        match rest with
        | 'u' :: 'l' :: 'l' :: r => some (.null, r)
        | _ => none
      else if c = 't' then
        match rest with
        | 'r' :: 'u' :: 'e' :: r => some (.bool true, r)
        | _ => none
      else if c = 'f' then
        match rest with
        | 'a' :: 'l' :: 's' :: 'e' :: r => some (.bool false, r)
        | _ => none
      else if c = '"' then (parseStrBody rest).map fun p => (.str p.1, p.2)
      else if c = '-' then parseNumber true rest
      else if c = '[' then
        if headIsP ']' rest then some (.arr .nil, rest.tail)
        else
          match parseVal fuel rest with
          | none => none
          | some (x, r) =>
              match parseArrRest fuel r with
              | none => none
              | some (xs, r2) => some (.arr (.cons x xs), r2)
      else if c = '{' then
        if headIsP '}' rest then some (.obj .nil, rest.tail)
        else
          match parseFieldP fuel rest with
          | none => none
          | some (k, v, r) =>
              match parseObjRest fuel r with
              | none => none
              | some (fs, r2) => some (.obj (.cons k v fs), r2)
      else if isDig c then parseNumber false (c :: rest)
      else none

/-- Array elements after the first: a comma-separated run closed by a
bracket. -/
def parseArrRest : Nat → List Char → Option (JsonList × List Char)
  | 0, _ => none
  | _ + 1, [] => none
  | fuel + 1, c :: rest =>
      if c = ']' then some (.nil, rest)
      else if c = ',' then
        match parseVal fuel rest with
        | none => none
        | some (x, r) =>
            match parseArrRest fuel r with
            | none => none
            | some (xs, r2) => some (.cons x xs, r2)
      else none

/-- One object field: quoted key, colon, value. -/
def parseFieldP : Nat → List Char → Option (List Char × Json × List Char)
  | 0, _ => none
  | _ + 1, [] => none
  | fuel + 1, c :: rest =>
      if c = '"' then
        match parseStrBody rest with
        | none => none
        | some (k, r) =>
            if headIsP ':' r then
              match parseVal fuel r.tail with
              | none => none
              | some (v, r3) => some (k, v, r3)
            else none
      else none

/-- Object fields after the first: a comma-separated run closed by a
brace. -/
def parseObjRest : Nat → List Char → Option (JsonFields × List Char)
  | 0, _ => none
  | _ + 1, [] => none
  | fuel + 1, c :: rest =>
      if c = '}' then some (.nil, rest)
      else if c = ',' then
        match parseFieldP fuel rest with
        | none => none
        | some (k, v, r) =>
            match parseObjRest fuel r with
            | none => none
            | some (fs, r2) => some (.cons k v fs, r2)
      else none
end

/-- Model of JSON.parse on a complete text: the whole input must be one
value (JSON.parse throws on trailing content). -/
def parseJson (cs : List Char) : Option Json :=
  match parseVal (cs.length + 1) cs with
  | some (j, []) => some j
  | _ => none

mutual
/-- Wellformed pipeline values: strings and keys drawn from okChar. -/
def wfJ : Json → Bool
  | .null => true
  | .bool _ => true
  | .num _ _ => true
  | .str s => s.all okChar
  | .arr xs => wfL xs
  | .obj fs => wfF fs

/-- Wellformedness of array elements. -/
def wfL : JsonList → Bool
  | .nil => true
  | .cons x tl => wfJ x && wfL tl

/-- Wellformedness of object fields. -/
def wfF : JsonFields → Bool
  | .nil => true
  | .cons k v tl => k.all okChar && wfJ v && wfF tl
end

mutual
/-- Fuel bound sufficient for parseVal on a serialized value. -/
def jsize : Json → Nat
  | .null => 1
  | .bool _ => 1
  | .num _ _ => 1
  | .str _ => 1
  | .arr xs => jsizeL xs
  | .obj fs => jsizeF fs

/-- Fuel bound for an array body. -/
def jsizeL : JsonList → Nat
  | .nil => 1
  | .cons x tl => 1 + jsize x + jsizeL tl

/-- Fuel bound for an object body. -/
def jsizeF : JsonFields → Nat
  | .nil => 1
  | .cons _ v tl => 1 + jsize v + jsizeF tl
end

theorem jsizeL_pos (xs : JsonList) : 1 ≤ jsizeL xs := by
  cases xs with
  | nil => simp [jsizeL]
  | cons x tl => simp only [jsizeL]; omega

theorem jsizeF_pos (fs : JsonFields) : 1 ≤ jsizeF fs := by
  cases fs with
  | nil => simp [jsizeF]
  | cons k v tl => simp only [jsizeF]; omega

theorem isDig_dChar {d : Nat} (h : d < 10) : isDig (dChar d) = true := by
  interval_cases d <;> decide

theorem digitVal_dChar {d : Nat} (h : d < 10) : digitVal (dChar d) = d := by
  interval_cases d <;> decide

theorem isDig_ne {c x : Char} (h : isDig c = true) (hx : isDig x = false) : c ≠ x := by
  intro e; rw [e, hx] at h; cases h

/-- The list does not begin with a decimal digit. -/
def notDigStart : List Char → Bool
  | [] => true
  | c :: _ => !isDig c

theorem parseDigits_spec (ds : List Nat) (hds : ∀ d ∈ ds, d < 10) (rest : List Char)
    (hrest : notDigStart rest = true) (acc n : Nat) :
    parseDigits (ds.map dChar ++ rest) acc n =
      (ds.foldl (fun a d => 10 * a + d) acc, n + ds.length, rest) := by
  induction ds generalizing acc n with
  | nil =>
      cases rest with
      | nil => simp [parseDigits]
      | cons c cs =>
          simp only [notDigStart, Bool.not_eq_true'] at hrest
          simp [parseDigits, hrest]
  | cons d ds ih =>
      have hd : d < 10 := hds d (by simp)
      have hds' : ∀ x ∈ ds, x < 10 := fun x hx => hds x (by simp [hx])
      simp only [List.map_cons, List.cons_append, parseDigits, isDig_dChar hd, if_true,
        digitVal_dChar hd, List.append_eq]
      rw [ih hds']
      simp only [List.foldl_cons, List.length_cons, Prod.mk.injEq]
      exact ⟨trivial, by omega, trivial⟩

theorem foldl_digits_eq (l : List Nat) (a : Nat) :
    l.foldl (fun a d => 10 * a + d) a = a * 10 ^ l.length + Nat.ofDigits 10 l.reverse := by
  induction l generalizing a with
  | nil => simp [Nat.ofDigits_nil]
  | cons d l ih =>
      simp only [List.foldl_cons, ih, List.reverse_cons, Nat.ofDigits_append,
        List.length_reverse, List.length_cons, Nat.ofDigits_singleton]
      ring

theorem digitsLE_eq (fuel n : Nat) (h : n ≤ fuel) : digitsLE fuel n = Nat.digits 10 n := by
  induction fuel generalizing n with
  | zero =>
      have : n = 0 := by omega
      simp [digitsLE, this]
  | succ f ih =>
      by_cases hn : n = 0
      · simp [digitsLE, hn]
      · have hlt : n / 10 < n := Nat.div_lt_self (by omega) (by norm_num)
        rw [digitsLE, if_neg hn, ih (n / 10) (by omega)]
        conv_rhs => rw [Nat.digits_def' (by norm_num : (1 : ℕ) < 10) (show 0 < n by omega)]

theorem digitsBE_eq (n : Nat) : digitsBE n = (Nat.digits 10 n).reverse := by
  rw [digitsBE, digitsLE_eq n n le_rfl]

theorem digitsBE_foldl (n : Nat) :
    (digitsBE n).foldl (fun a d => 10 * a + d) 0 = n := by
  rw [digitsBE_eq, foldl_digits_eq, List.reverse_reverse, Nat.ofDigits_digits]
  simp

theorem foldl_replicate_zero (z : Nat) :
    (List.replicate z 0).foldl (fun a d => 10 * a + d) 0 = 0 := by
  induction z with
  | zero => rfl
  | succ z ih => simpa [List.replicate_succ] using ih

theorem padDigits_foldl (k n : Nat) :
    (padDigits k (digitsBE n)).foldl (fun a d => 10 * a + d) 0 = n := by
  simp [padDigits, List.foldl_append, foldl_replicate_zero, digitsBE_foldl]

theorem padDigits_lt (k n : Nat) : ∀ d ∈ padDigits k (digitsBE n), d < 10 := by
  intro d hd
  simp only [padDigits, List.mem_append, List.mem_replicate] at hd
  rcases hd with h | h
  · omega
  · rw [digitsBE_eq] at h
    exact Nat.digits_lt_base (by norm_num) (List.mem_reverse.mp h)

theorem padDigits_len (k n : Nat) : k + 1 ≤ (padDigits k (digitsBE n)).length := by
  simp only [padDigits, List.length_append, List.length_replicate]
  omega

theorem serNumBody_shape (n k : Nat) :
    ∃ d t, serNumBody n k = dChar d :: t ∧ d < 10 := by
  have hlen := padDigits_len k n
  have hlt := padDigits_lt k n
  set ds := padDigits k (digitsBE n) with hds
  have hip : 1 ≤ (ds.take (ds.length - k)).length := by
    rw [List.length_take]
    omega
  obtain ⟨d, ip', hipe⟩ : ∃ d ip', ds.take (ds.length - k) = d :: ip' := by
    cases h : ds.take (ds.length - k) with
    | nil => rw [h] at hip; simp at hip
    | cons a b => exact ⟨a, b, rfl⟩
  refine ⟨d, ip'.map dChar ++ (if k = 0 then [] else '.' :: (ds.drop (ds.length - k)).map dChar), ?_, ?_⟩
  · simp [serNumBody, hipe]
  · exact hlt d (List.mem_of_mem_take (hipe ▸ List.mem_cons_self d ip'))

theorem parseNumber_body (neg : Bool) (n k : Nat) (rest : List Char)
    (h1 : notDigStart rest = true) (h2 : headIsP '.' rest = false) :
    parseNumber neg (serNumBody n k ++ rest) =
      some (.num (if neg then -(n : Int) else (n : Int)) k, rest) := by
  have hlen := padDigits_len k n
  have hlt := padDigits_lt k n
  have hfold := padDigits_foldl k n
  set ds := padDigits k (digitsBE n) with hds
  have hlt' : ∀ d ∈ ds.take (ds.length - k), d < 10 :=
    fun d hd => hlt d (List.mem_of_mem_take hd)
  cases k with
  | zero =>
      have : serNumBody n 0 = ds.map dChar := by
        simp [serNumBody, ← hds, List.take_length]
      rw [this]
      have hpd := parseDigits_spec ds hlt rest h1 0 0
      simp only [parseNumber, hpd, hfold]
      have hn0 : ¬ ds.length = 0 := by omega
      simp [hn0, h2]
  | succ s =>
      have hsplit : serNumBody n (s + 1) =
          (ds.take (ds.length - (s + 1))).map dChar ++
            '.' :: (ds.drop (ds.length - (s + 1))).map dChar := by
        simp [serNumBody, ← hds]
      rw [hsplit]
      have hpd := parseDigits_spec (ds.take (ds.length - (s + 1))) hlt'
        ('.' :: (ds.drop (ds.length - (s + 1))).map dChar ++ rest) rfl 0 0
      have hlen1 : (ds.take (ds.length - (s + 1))).length = ds.length - (s + 1) := by
        rw [List.length_take]; omega
      have hpd2 := parseDigits_spec (ds.drop (ds.length - (s + 1)))
        (fun d hd => hlt d (List.mem_of_mem_drop hd)) rest h1
        (List.foldl (fun a d => 10 * a + d) 0 (ds.take (ds.length - (s + 1)))) 0
      have hlen2 : (ds.drop (ds.length - (s + 1))).length = s + 1 := by
        rw [List.length_drop]; omega
      have hcomb : List.foldl (fun a d => 10 * a + d)
          (List.foldl (fun a d => 10 * a + d) 0 (ds.take (ds.length - (s + 1))))
          (ds.drop (ds.length - (s + 1))) = n := by
        rw [← List.foldl_append, List.take_append_drop, hfold]
      have hn1 : ¬ (0 + (ds.take (ds.length - (s + 1))).length = 0) := by
        rw [hlen1]; omega
      simp only [List.append_assoc, List.cons_append] at hpd ⊢
      simp only [parseNumber, hpd, if_neg hn1, headIsP, List.tail_cons, hpd2, hcomb, hlen2]
      simp

theorem parseStrBody_spec (s : List Char) (h : ∀ c ∈ s, c ≠ '"') (rest : List Char) :
    parseStrBody (s ++ '"' :: rest) = some (s, rest) := by
  induction s with
  | nil => simp [parseStrBody]
  | cons c cs ih =>
      have hc : c ≠ '"' := h c (by simp)
      have h2 := ih fun x hx => h x (by simp [hx])
      simp [parseStrBody, if_neg hc, h2]

theorem parseVal_serNum (m : Int) (k : Nat) (f : Nat) (rest : List Char)
    (h1 : notDigStart rest = true) (h2 : headIsP '.' rest = false) :
    parseVal (f + 1) (serNum m k ++ rest) = some (.num m k, rest) := by
  by_cases hm : m < 0
  · have he : serNum m k ++ rest = '-' :: (serNumBody m.natAbs k ++ rest) := by
      simp [serNum, hm]
    rw [he]
    have hb := parseNumber_body true m.natAbs k rest h1 h2
    have hv : -(m.natAbs : Int) = m := by omega
    simp only [parseVal, if_neg (show ('-' : Char) ≠ 'n' by decide),
      if_neg (show ('-' : Char) ≠ 't' by decide),
      if_neg (show ('-' : Char) ≠ 'f' by decide),
      if_neg (show ('-' : Char) ≠ '"' by decide), if_pos (rfl : ('-' : Char) = '-')]
    rw [hb, if_pos rfl, hv]
    simp
  · obtain ⟨d, t, hbody, hd⟩ := serNumBody_shape m.natAbs k
    have he : serNum m k ++ rest = dChar d :: (t ++ rest) := by
      simp [serNum, hm, hbody]
    rw [he]
    have hdig : isDig (dChar d) = true := isDig_dChar hd
    have hb := parseNumber_body false m.natAbs k rest h1 h2
    rw [hbody] at hb
    have hv : (m.natAbs : Int) = m := by omega
    simp only [parseVal, if_neg (isDig_ne hdig (by decide) : dChar d ≠ 'n'),
      if_neg (isDig_ne hdig (by decide) : dChar d ≠ 't'),
      if_neg (isDig_ne hdig (by decide) : dChar d ≠ 'f'),
      if_neg (isDig_ne hdig (by decide) : dChar d ≠ '"'),
      if_neg (isDig_ne hdig (by decide) : dChar d ≠ '-'),
      if_neg (isDig_ne hdig (by decide) : dChar d ≠ '['),
      if_neg (isDig_ne hdig (by decide) : dChar d ≠ '{'), hdig, if_true]
    rw [show dChar d :: (t ++ rest) = (dChar d :: t) ++ rest from rfl, hb,
      if_neg (by decide : ¬ (false = true)), hv]

/-- The first character of a serialized value is never a closing bracket,
closing brace, comma or colon. -/
theorem ser_headIsP (u : Json) (z : List Char) (c : Char)
    (hc : c = ']' ∨ c = '}' ∨ c = ',' ∨ c = ':') :
    headIsP c (ser u ++ z) = false := by
  have hne : ∀ a : Char, isDig a = true → a ≠ c := by
    rcases hc with h | h | h | h <;> subst h <;> exact fun a ha => isDig_ne ha (by decide)
  cases u with
  | null => rcases hc with h | h | h | h <;> subst h <;> rfl
  | bool b =>
      cases b <;> rcases hc with h | h | h | h <;> subst h <;> rfl
  | num m k =>
      by_cases hm : m < 0
      · have : ser (.num m k) = '-' :: serNumBody m.natAbs k := by simp [ser, serNum, hm]
        rw [this]
        rcases hc with h | h | h | h <;> subst h <;> rfl
      · obtain ⟨d, t, hbody, hd⟩ := serNumBody_shape m.natAbs k
        have : ser (.num m k) ++ z = dChar d :: (t ++ z) := by
          simp [ser, serNum, hm, hbody]
        rw [this]
        simp [headIsP, hne (dChar d) (isDig_dChar hd)]
  | str s => rcases hc with h | h | h | h <;> subst h <;> rfl
  | arr xs => rcases hc with h | h | h | h <;> subst h <;> rfl
  | obj fs => rcases hc with h | h | h | h <;> subst h <;> rfl

theorem serNum_len (m : Int) (k : Nat) : 1 ≤ (serNum m k).length := by
  obtain ⟨d, t, hb, _⟩ := serNumBody_shape m.natAbs k
  by_cases hm : m < 0 <;> simp [serNum, hb, hm]

mutual
theorem jsize_le_ser : ∀ u : Json, jsize u ≤ (ser u).length
  | .null => by simp [jsize, ser]
  | .bool b => by cases b <;> simp [jsize, ser]
  | .num m k => by simpa [jsize, ser] using serNum_len m k
  | .str s => by simp [jsize, ser]
  | .arr .nil => by simp [jsize, jsizeL, ser, serItems]
  | .arr (.cons x tl) => by
      have h1 := jsize_le_ser x
      have h2 := jsizeL_le_serITail tl
      simp only [jsize, jsizeL, ser, serItems, List.length_append, List.length_cons]
      omega
  | .obj .nil => by simp [jsize, jsizeF, ser, serFields]
  | .obj (.cons k v tl) => by
      have h1 := jsize_le_ser v
      have h2 := jsizeF_le_serFTail tl
      simp only [jsize, jsizeF, ser, serFields, List.length_append, List.length_cons]
      omega

theorem jsizeL_le_serITail : ∀ xs : JsonList, jsizeL xs ≤ (serITail xs).length + 1
  | .nil => by simp [jsizeL, serITail]
  | .cons x tl => by
      have h1 := jsize_le_ser x
      have h2 := jsizeL_le_serITail tl
      simp only [jsizeL, serITail, List.length_append, List.length_cons]
      omega

theorem jsizeF_le_serFTail : ∀ fs : JsonFields, jsizeF fs ≤ (serFTail fs).length + 1
  | .nil => by simp [jsizeF, serFTail]
  | .cons k v tl => by
      have h1 := jsize_le_ser v
      have h2 := jsizeF_le_serFTail tl
      simp only [jsizeF, serFTail, List.length_append, List.length_cons]
      omega
end

/-- The continuation after a serialized value inside a document: empty, or
starting with a comma or closing bracket or brace. -/
def delimOk : List Char → Bool
  | [] => true
  | c :: _ => c = ',' || c = ']' || c = '}'

theorem delim_notDig {rest : List Char} (h : delimOk rest = true) : notDigStart rest = true := by
  cases rest with
  | nil => rfl
  | cons c cs =>
      simp only [delimOk, Bool.or_eq_true, decide_eq_true_eq] at h
      rcases h with (h | h) | h <;> subst h <;> rfl

theorem delim_noDot {rest : List Char} (h : delimOk rest = true) : headIsP '.' rest = false := by
  cases rest with
  | nil => rfl
  | cons c cs =>
      simp only [delimOk, Bool.or_eq_true, decide_eq_true_eq] at h
      rcases h with (h | h) | h <;> subst h <;> rfl

theorem delimOk_serITail (tl : JsonList) (rest : List Char) :
    delimOk (serITail tl ++ ']' :: rest) = true := by
  cases tl <;> rfl

theorem delimOk_serFTail (tl : JsonFields) (rest : List Char) :
    delimOk (serFTail tl ++ '}' :: rest) = true := by
  cases tl <;> rfl

mutual
theorem parse_ser : ∀ u : Json, wfJ u = true → ∀ rest : List Char, delimOk rest = true →
    ∀ f : Nat, jsize u ≤ f → parseVal f (ser u ++ rest) = some (u, rest)
  | .null, _, rest, _, f, hf => by
      obtain ⟨f', rfl⟩ : ∃ f', f = f' + 1 :=
        ⟨f - 1, by simp only [jsize] at hf; omega⟩
      rfl
  | .bool true, _, rest, _, f, hf => by
      obtain ⟨f', rfl⟩ : ∃ f', f = f' + 1 :=
        ⟨f - 1, by simp only [jsize] at hf; omega⟩
      rfl
  | .bool false, _, rest, _, f, hf => by
      obtain ⟨f', rfl⟩ : ∃ f', f = f' + 1 :=
        ⟨f - 1, by simp only [jsize] at hf; omega⟩
      rfl
  | .num m k, _, rest, hr, f, hf => by
      obtain ⟨f', rfl⟩ : ∃ f', f = f' + 1 :=
        ⟨f - 1, by simp only [jsize] at hf; omega⟩
      exact parseVal_serNum m k f' rest (delim_notDig hr) (delim_noDot hr)
  | .str s, hw, rest, _, f, hf => by
      obtain ⟨f', rfl⟩ : ∃ f', f = f' + 1 :=
        ⟨f - 1, by simp only [jsize] at hf; omega⟩
      have hs : ∀ c ∈ s, c ≠ '"' := by
        intro c hc
        simp only [wfJ, List.all_eq_true] at hw
        have := hw c hc
        simp only [okChar, Bool.and_eq_true, decide_eq_true_eq] at this
        exact this.1.1.1
      have hshape : ser (.str s) ++ rest = '"' :: (s ++ '"' :: rest) := by
        simp [ser]
      rw [hshape]
      simp only [parseVal, if_neg (show ('"' : Char) ≠ 'n' by decide),
        if_neg (show ('"' : Char) ≠ 't' by decide),
        if_neg (show ('"' : Char) ≠ 'f' by decide), if_pos (rfl : ('"' : Char) = '"'),
        parseStrBody_spec s hs rest, Option.map_some]
      simp
  | .arr .nil, _, rest, _, f, hf => by
      obtain ⟨f', rfl⟩ : ∃ f', f = f' + 1 :=
        ⟨f - 1, by simp only [jsize, jsizeL] at hf; omega⟩
      rfl
  | .arr (.cons x tl), hw, rest, hr, f, hf => by
      simp only [wfJ, wfL, Bool.and_eq_true] at hw
      simp only [jsize, jsizeL] at hf
      obtain ⟨f', rfl⟩ : ∃ f', f = f' + 1 := ⟨f - 1, by omega⟩
      have hshape : ser (.arr (.cons x tl)) ++ rest =
          '[' :: (ser x ++ (serITail tl ++ ']' :: rest)) := by
        simp [ser, serItems]
      rw [hshape]
      have hx := parse_ser x hw.1 (serITail tl ++ ']' :: rest) (delimOk_serITail tl rest)
        f' (by omega)
      have htl := parse_serITail tl hw.2 rest hr f' (by omega)
      simp only [parseVal, if_neg (show ('[' : Char) ≠ 'n' by decide),
        if_neg (show ('[' : Char) ≠ 't' by decide),
        if_neg (show ('[' : Char) ≠ 'f' by decide),
        if_neg (show ('[' : Char) ≠ '"' by decide),
        if_neg (show ('[' : Char) ≠ '-' by decide), if_pos (rfl : ('[' : Char) = '['),
        ser_headIsP x (serITail tl ++ ']' :: rest) ']' (Or.inl rfl), hx, htl]
      simp
  | .obj .nil, _, rest, _, f, hf => by
      obtain ⟨f', rfl⟩ : ∃ f', f = f' + 1 :=
        ⟨f - 1, by simp only [jsize, jsizeF] at hf; omega⟩
      rfl
  | .obj (.cons k v tl), hw, rest, hr, f, hf => by
      simp only [wfJ, wfF, Bool.and_eq_true] at hw
      simp only [jsize, jsizeF] at hf
      obtain ⟨f', rfl⟩ : ∃ f', f = f' + 1 := ⟨f - 1, by omega⟩
      have hf' : jsize v + jsizeF tl ≤ f' := by omega
      have hkq : ∀ c ∈ k, c ≠ '"' := by
        intro c hc
        have := hw.1.1
        simp only [List.all_eq_true] at this
        have := this c hc
        simp only [okChar, Bool.and_eq_true, decide_eq_true_eq] at this
        exact this.1.1.1
      obtain ⟨f'', rfl⟩ : ∃ f'', f' = f'' + 1 :=
        ⟨f' - 1, by have := jsizeF_pos tl; have := jsizeL_pos; omega⟩
      have hshape : ser (.obj (.cons k v tl)) ++ rest =
          '{' :: ('"' :: (k ++ '"' :: ':' :: (ser v ++ (serFTail tl ++ '}' :: rest)))) := by
        simp [ser, serFields, serField]
      rw [hshape]
      have hv := parse_ser v hw.1.2 (serFTail tl ++ '}' :: rest) (delimOk_serFTail tl rest)
        f'' (by have := jsizeF_pos tl; omega)
      have htl := parse_serFTail tl hw.2 rest hr (f'' + 1) (by omega)
      simp only [parseVal, if_neg (show ('{' : Char) ≠ 'n' by decide),
        if_neg (show ('{' : Char) ≠ 't' by decide),
        if_neg (show ('{' : Char) ≠ 'f' by decide),
        if_neg (show ('{' : Char) ≠ '"' by decide),
        if_neg (show ('{' : Char) ≠ '-' by decide),
        if_neg (show ('{' : Char) ≠ '[' by decide), if_pos (rfl : ('{' : Char) = '{'),
        headIsP, parseFieldP, if_pos (rfl : ('"' : Char) = '"'),
        parseStrBody_spec k hkq (':' :: (ser v ++ (serFTail tl ++ '}' :: rest))),
        List.tail_cons, hv]
      simp [htl]

theorem parse_serITail : ∀ tl : JsonList, wfL tl = true → ∀ rest : List Char,
    delimOk rest = true → ∀ f : Nat, jsizeL tl ≤ f →
    parseArrRest f (serITail tl ++ ']' :: rest) = some (tl, rest)
  | .nil, _, rest, _, f, hf => by
      obtain ⟨f', rfl⟩ : ∃ f', f = f' + 1 :=
        ⟨f - 1, by simp only [jsizeL] at hf; omega⟩
      rfl
  | .cons x tl, hw, rest, hr, f, hf => by
      simp only [wfL, Bool.and_eq_true] at hw
      simp only [jsizeL] at hf
      obtain ⟨f', rfl⟩ : ∃ f', f = f' + 1 := ⟨f - 1, by omega⟩
      have hshape : serITail (.cons x tl) ++ ']' :: rest =
          ',' :: (ser x ++ (serITail tl ++ ']' :: rest)) := by
        simp [serITail]
      rw [hshape]
      have hx := parse_ser x hw.1 (serITail tl ++ ']' :: rest) (delimOk_serITail tl rest)
        f' (by omega)
      have htl := parse_serITail tl hw.2 rest hr f' (by omega)
      simp only [parseArrRest, if_neg (show (',' : Char) ≠ ']' by decide),
        if_pos (rfl : (',' : Char) = ','), hx, htl]
      simp

theorem parse_serFTail : ∀ tl : JsonFields, wfF tl = true → ∀ rest : List Char,
    delimOk rest = true → ∀ f : Nat, jsizeF tl ≤ f →
    parseObjRest f (serFTail tl ++ '}' :: rest) = some (tl, rest)
  | .nil, _, rest, _, f, hf => by
      obtain ⟨f', rfl⟩ : ∃ f', f = f' + 1 :=
        ⟨f - 1, by simp only [jsizeF] at hf; omega⟩
      rfl
  | .cons k v tl, hw, rest, hr, f, hf => by
      simp only [wfF, Bool.and_eq_true] at hw
      simp only [jsizeF] at hf
      obtain ⟨f', rfl⟩ : ∃ f', f = f' + 1 := ⟨f - 1, by omega⟩
      obtain ⟨f'', rfl⟩ : ∃ f'', f' = f'' + 1 :=
        ⟨f' - 1, by have := jsizeF_pos tl; omega⟩
      have hkq : ∀ c ∈ k, c ≠ '"' := by
        intro c hc
        have := hw.1.1
        simp only [List.all_eq_true] at this
        have := this c hc
        simp only [okChar, Bool.and_eq_true, decide_eq_true_eq] at this
        exact this.1.1.1
      have hshape : serFTail (.cons k v tl) ++ '}' :: rest =
          ',' :: ('"' :: (k ++ '"' :: ':' :: (ser v ++ (serFTail tl ++ '}' :: rest)))) := by
        simp [serFTail, serField]
      rw [hshape]
      have hv := parse_ser v hw.1.2 (serFTail tl ++ '}' :: rest) (delimOk_serFTail tl rest)
        f'' (by have := jsizeF_pos tl; omega)
      have htl := parse_serFTail tl hw.2 rest hr (f'' + 1) (by omega)
      simp only [parseArrRest, parseObjRest, if_neg (show (',' : Char) ≠ '}' by decide),
        if_pos (rfl : (',' : Char) = ','), parseFieldP,
        if_pos (rfl : ('"' : Char) = '"'),
        parseStrBody_spec k hkq (':' :: (ser v ++ (serFTail tl ++ '}' :: rest))),
        headIsP, List.tail_cons, hv]
      simp [htl]
end

/-- Round trip of the pipeline write / read formats: parsing a serialized
wellformed value recovers it exactly. -/
theorem parseJson_ser (u : Json) (hw : wfJ u = true) : parseJson (ser u) = some u := by
  have h := parse_ser u hw [] rfl ((ser u).length + 1)
    (Nat.le_succ_of_le (jsize_le_ser u))
  rw [List.append_nil] at h
  simp [parseJson, h]

/-! ## Feature optimizer (MemorySafeProcessor.optimizeFeature, preprocessor.js) -/

/-- Exact value of the decimal m / 10 ^ k. -/
def qVal (m : Int) (k : Nat) : ℚ := (m : ℚ) / (10 : ℚ) ^ k

/-- Model of Math.round: round half toward positive infinity. -/
def jsRound (q : ℚ) : Int := ⌊q + 1 / 2⌋

/-- Math.round(x * 100000) / 100000 as a decimal with 5 fraction digits. -/
def roundTo5 (m : Int) (k : Nat) : Json := .num (jsRound (qVal m k * 100000)) 5

/-- One coordinate pair [round(c[0]*1e5)/1e5, round(c[1]*1e5)/1e5], the inner
map body of simplifyCoords. A null element throws in JavaScript (modelled as
none); elements that are not two-number arrays would produce NaN components
in JavaScript, which the decimal number model cannot carry and which no
wellformed coordinate tree produces, so they are also modelled as none. -/
def roundPair : Json → Option Json
  | .arr (.cons (.num m1 k1) (.cons (.num m2 k2) _)) =>
      some (.arr (.cons (roundTo5 m1 k1) (.cons (roundTo5 m2 k2) .nil)))
  | _ => none

/-- Pointwise roundPair over an array body. -/
def roundPairs : JsonList → Option JsonList
  | .nil => some .nil
  | .cons x tl =>
      match roundPair x, roundPairs tl with
      | some y, some ys => some (.cons y ys)
      | _, _ => none

/-- Array.isArray(coords[0]) && Array.isArray(coords[0][0]). -/
def isNestedHead : Json → Bool
  | .arr (.cons y0 _) => y0.isArrJ
  | _ => false

mutual
/-- The simplifyCoords closure of optimizeFeature: descend while the first
element of the first element is an array, round the coordinate pairs at the
level where the first element is an array of scalars, and return anything
else (a bare Point pair included) unchanged. none models a thrown
TypeError (indexing null / undefined). -/
def simplifyCoords : Json → Option Json
  | .null => none
  | .arr .nil => some (.arr .nil)
  | .arr (.cons x0 rest) =>
      if isNestedHead x0 then
        match simplifyList (.cons x0 rest) with
        | some ys => some (.arr ys)
        | none => none
      else if x0.isArrJ then
        match roundPairs (.cons x0 rest) with
        | some ys => some (.arr ys)
        | none => none
      else some (.arr (.cons x0 rest))
  | .bool b => some (.bool b)
  | .num m k => some (.num m k)
  | .str s => some (.str s)
  | .obj fs => some (.obj fs)

/-- coords.map(ring => simplifyCoords(ring)) with exception propagation. -/
def simplifyList : JsonList → Option JsonList
  | .nil => some .nil
  | .cons x tl =>
      match simplifyCoords x with
      | none => none
      | some y =>
          match simplifyList tl with
          | none => none
          | some ys => some (.cons y ys)
end

mutual
/-- Model of JavaScript String(v) on JSON values (numbers print as their
decimal text; the float-specific canonical form is idealized to the stored
decimal). -/
def jsToString : Json → List Char
  | .null => ['n', 'u', 'l', 'l']
  | .bool b => if b then ['t', 'r', 'u', 'e'] else ['f', 'a', 'l', 's', 'e']
  | .num m k => serNum m k
  | .str s => s
  | .arr xs => jsToStringList xs
  | .obj _ => "[object Object]".toList

/-- Array.prototype.toString: elements joined with commas. -/
def jsToStringList : JsonList → List Char
  | .nil => []
  | .cons x .nil => jsToString x
  | .cons x tl => jsToString x ++ ',' :: jsToStringList tl
end

/-- String(v || ''): empty for a falsy or missing value. -/
def strOrEmpty : Option Json → List Char
  | some v => if v.jsTruthy then jsToString v else []
  | none => []

/-- Number(string): a full decimal literal parses to its value; other
strings give NaN in JavaScript, which the decimal model cannot carry and
which the pipeline never feeds it, modelled as 0. -/
def parseJsNumStr (s : List Char) : Option Json :=
  match s with
  | '-' :: rest =>
      match parseNumber true rest with
      | some (j, []) => some j
      | _ => none
  | _ =>
      match parseNumber false s with
      | some (j, []) => some j
      | _ => none

/-- Model of JavaScript Number(v) on JSON values (NaN results are modelled
as 0; no claim depends on them and wellformed features never produce them). -/
def jsToNumber : Json → Json
  | .num m k => .num m k
  | .bool true => .num 1 0
  | .bool false => .num 0 0
  | .null => .num 0 0
  | .str s =>
      match parseJsNumStr s with
      | some j => j
      | none => .num 0 0
  | .arr (.cons x .nil) => jsToNumber x
  | .arr _ => .num 0 0
  | .obj _ => .num 0 0

/-- Number(v || 0): zero for a falsy or missing value. -/
def numOrZero : Option Json → Json
  | some v => if v.jsTruthy then jsToNumber v else .num 0 0
  | none => .num 0 0

/-- feature.properties?.KEY: undefined when properties is missing,
null or not an object. -/
def propGet (f : Json) (key : List Char) : Option Json :=
  match f.jsGetProp ("properties".toList) with
  | some p => p.jsGetProp key
  | none => none

/-- The reduced properties object built by optimizeFeature. -/
def optProps (f : Json) : Json :=
  .obj (.cons "name".toList (.str ((strOrEmpty (propGet f "NAME".toList)).take 100))
    (.cons "designation".toList (.str ((strOrEmpty (propGet f "DESIG".toList)).take 50))
      (.cons "iucn".toList (.str (strOrEmpty (propGet f "IUCN_CAT".toList)))
        (.cons "country".toList (.str (strOrEmpty (propGet f "ISO3".toList)))
          (.cons "area".toList (numOrZero (propGet f "REP_AREA".toList))
            (.cons "wdpaid".toList (.str (strOrEmpty (propGet f "WDPAID".toList))) .nil))))))

/-- The geometry object { type: g.type, coordinates: sc }; a missing type
is undefined and JSON.stringify drops the key, so the field is present
exactly when the source geometry carries one. -/
def optGeometry (g sc : Json) : Json :=
  match g.jsGetProp ("type".toList) with
  | some t => .obj (.cons "type".toList t (.cons "coordinates".toList sc .nil))
  | none => .obj (.cons "coordinates".toList sc .nil)

/-- MemorySafeProcessor.optimizeFeature: null when geometry is falsy;
none also models the TypeError thrown by simplifyCoords on undefined or
null coordinates, which the caller's try/catch swallows with the same
observable effect (no feature emitted). -/
def optimizeFeature (f : Json) : Option Json :=
  match f.jsGetProp ("geometry".toList) with
  | none => none
  | some g =>
      if ¬ g.jsTruthy then none
      else
        match g.jsGetProp ("coordinates".toList) with
        | none => none
        | some coords =>
            match simplifyCoords coords with
            | none => none
            | some sc =>
                some (.obj (.cons "type".toList (.str "Feature".toList)
                  (.cons "geometry".toList (optGeometry g sc)
                    (.cons "properties".toList (optProps f) .nil))))

/-! ## Streaming extractor and chunk writer
(MemorySafeProcessor.processRegion / writeChunk, preprocessor.js) -/

/-- One written chunk file: its features array and the metadata the writer
records (chunk index and feature count; the constant region code and the
deterministic file name chunk_<idx>.json are functions of idx). -/
structure Chunk where
  features : List Json
  idx : Nat
  count : Nat
deriving DecidableEq

/-- The per-region mutable state of MemorySafeProcessor.processRegion:
the inFeatures flag, the feature-text accumulator and brace depth of the
line scanner, the in-memory batch, counters, and the chunk files written
so far (the disk, modelled as a value store in write order). -/
structure ProcState where
  inFeatures : Bool
  currentFeature : List Char
  braceDepth : Nat
  currentChunk : List Json
  chunkIndex : Nat
  featureCount : Nat
  chunks : List Chunk
deriving DecidableEq

/-- Fresh state at the start of a region. -/
def initState : ProcState :=
  { inFeatures := false, currentFeature := [], braceDepth := 0, currentChunk := [],
    chunkIndex := 0, featureCount := 0, chunks := [] }

/-- MemorySafeProcessor.writeChunk: returns without writing when the batch
is empty, otherwise writes { features, metadata: { chunk, count } },
clears the batch and increments the chunk index. -/
def writeChunk (s : ProcState) : ProcState :=
  if s.currentChunk.length = 0 then s
  else
    { s with
      chunks := s.chunks ++ [⟨s.currentChunk, s.chunkIndex, s.currentChunk.length⟩],
      currentChunk := [], chunkIndex := s.chunkIndex + 1 }

/-- feature.type === 'Feature' && feature.geometry. -/
def featureOk (f : Json) : Bool :=
  (f.jsGetProp ("type".toList) = some (.str "Feature".toList) : Bool) &&
    (match f.jsGetProp ("geometry".toList) with
     | some g => g.jsTruthy
     | none => false)

/-- The depth-0 completion handler: strip one trailing comma (dead code in
this scanner, the accumulator always ends in a closing brace, kept for
fidelity), JSON.parse the text, keep it when it is a Feature with truthy
geometry and optimizeFeature succeeds, write the batch when it reaches
featuresPerChunk, and clear the accumulator; parse or optimize failures
are swallowed by the try/catch with only the accumulator cleared. -/
def handleComplete (fpc : Nat) (s : ProcState) : ProcState :=
  let cleaned :=
    if s.currentFeature.getLast? = some ',' then s.currentFeature.dropLast
    else s.currentFeature
  let s1 :=
    match parseJson cleaned with
    | none => s
    | some f =>
        if featureOk f then
          match optimizeFeature f with
          | none => s
          | some o =>
              if fpc ≤ (s.currentChunk ++ [o]).length then
                writeChunk { s with currentChunk := s.currentChunk ++ [o],
                                    featureCount := s.featureCount + 1 }
              else { s with currentChunk := s.currentChunk ++ [o],
                            featureCount := s.featureCount + 1 }
        else s
  { s1 with currentFeature := [] }

/-- The per-character brace scanner of processRegion. -/
def scanChar (fpc : Nat) (s : ProcState) (c : Char) : ProcState :=
  if c = '{' ∧ s.braceDepth = 0 then
    { s with currentFeature := ['{'], braceDepth := 1 }
  else if c = '{' ∧ 0 < s.braceDepth then
    { s with currentFeature := s.currentFeature ++ [c], braceDepth := s.braceDepth + 1 }
  else if c = '}' ∧ 0 < s.braceDepth then
    if s.braceDepth - 1 = 0 then
      handleComplete fpc { s with currentFeature := s.currentFeature ++ [c],
                                  braceDepth := s.braceDepth - 1 }
    else { s with currentFeature := s.currentFeature ++ [c],
                  braceDepth := s.braceDepth - 1 }
  else if 0 < s.braceDepth then
    { s with currentFeature := s.currentFeature ++ [c] }
  else s

/-- The trimmed line equals ], ], or ]}. -/
def isCloser (t : List Char) : Bool :=
  t = [']'] || t = [']', ','] || t = [']', '}']

/-- trimmed.includes('"features":') && trimmed.includes('['). -/
def isMarker (t : List Char) : Bool :=
  containsSub ("\"features\":".toList) t && containsSub ['['] t

/-- The rl.on('line') handler of processRegion: marker check first (it fires
in any state), lines outside the features array ignored, the closer line
ends the array and flushes the final chunk regardless of brace depth, and
any other line is scanned character by character. -/
def processLine (fpc : Nat) (s : ProcState) (line : List Char) : ProcState :=
  let trimmed := jsTrim line
  if isMarker trimmed then { s with inFeatures := true }
  else if ¬ s.inFeatures then s
  else if isCloser trimmed then writeChunk { s with inFeatures := false }
  else trimmed.foldl (scanChar fpc) s

/-- A whole region run: fold the line handler over the file's lines. -/
def processLines (fpc : Nat) (lines : List (List Char)) : ProcState :=
  lines.foldl (processLine fpc) initState

/-- The features recoverable from the written chunks, in chunk-index order. -/
def concatFeatures : List Chunk → List Json
  | [] => []
  | c :: tl => c.features ++ concatFeatures tl

/-! ## FeatureProcessor chunk writer (tile-generator.js, third script) -/

namespace FP

/-- FeatureProcessor per-region state: batch, counters, written chunks. -/
structure FPState where
  currentChunk : List Json
  chunkIndex : Nat
  featureCount : Nat
  chunks : List Chunk
deriving DecidableEq

/-- Fresh FeatureProcessor. -/
def initFP : FPState :=
  { currentChunk := [], chunkIndex := 0, featureCount := 0, chunks := [] }

/-- FeatureProcessor.writeChunk: early return on an empty batch, otherwise
write { features, metadata: { chunk, totalFeatures } } and reset. -/
def fpWriteChunk (s : FPState) : FPState :=
  if s.currentChunk.length = 0 then s
  else
    { s with
      chunks := s.chunks ++ [⟨s.currentChunk, s.chunkIndex, s.currentChunk.length⟩],
      currentChunk := [], chunkIndex := s.chunkIndex + 1 }

/-- One field of FeatureProcessor.optimizeProperties: copied under the
lowercase name when present in the source (undefined check). -/
def fpField (pv : Json) (upper lower : List Char) (rest : JsonFields) : JsonFields :=
  match pv.jsGetProp upper with
  | some v => .cons lower v rest
  | none => rest

/-- FeatureProcessor.optimizeProperties: {} for missing or falsy properties,
otherwise the allow-listed fields in order, lowercased. -/
def optimizeProperties (p : Option Json) : Json :=
  match p with
  | none => .obj .nil
  | some pv =>
      if ¬ pv.jsTruthy then .obj .nil
      else
        .obj (fpField pv "NAME".toList "name".toList
          (fpField pv "DESIG".toList "desig".toList
            (fpField pv "DESIG_ENG".toList "desig_eng".toList
              (fpField pv "IUCN_CAT".toList "iucn_cat".toList
                (fpField pv "ISO3".toList "iso3".toList
                  (fpField pv "REP_AREA".toList "rep_area".toList
                    (fpField pv "WDPAID".toList "wdpaid".toList
                      (fpField pv "MARINE".toList "marine".toList .nil))))))))

/-- The optimized record FeatureProcessor.addFeature builds: type, the
source geometry (key dropped when undefined, as JSON.stringify would),
reduced properties, and feature.id || `region_count`. -/
def fpOptimized (region : List Char) (count : Nat) (f : Json) : Json :=
  let fid : Json :=
    match f.jsGetProp ("id".toList) with
    | some v => if v.jsTruthy then v else .str (region ++ '_' :: serNum count 0)
    | none => .str (region ++ '_' :: serNum count 0)
  let tailF : JsonFields :=
    .cons "properties".toList (optimizeProperties (f.jsGetProp ("properties".toList)))
      (.cons "id".toList fid .nil)
  match f.jsGetProp ("geometry".toList) with
  | some g => .obj (.cons "type".toList (.str "Feature".toList)
      (.cons "geometry".toList g tailF))
  | none => .obj (.cons "type".toList (.str "Feature".toList) tailF)

/-- FeatureProcessor.addFeature: push the optimized record, count it, and
write the chunk when the batch reaches featuresPerChunk. -/
def addFeature (region : List Char) (fpc : Nat) (s : FPState) (f : Json) : FPState :=
  let s1 := { s with
    currentChunk := s.currentChunk ++ [fpOptimized region s.featureCount f],
    featureCount := s.featureCount + 1 }
  if fpc ≤ s1.currentChunk.length then fpWriteChunk s1 else s1

/-- FeatureProcessor.finish: flush a non-empty remainder. -/
def finish (s : FPState) : FPState :=
  if 0 < s.currentChunk.length then fpWriteChunk s else s

/-- A whole run: add every feature, then finish. -/
def runFP (region : List Char) (fpc : Nat) (fs : List Json) : FPState :=
  finish (fs.foldl (addFeature region fpc) initFP)

end FP

/-! ## FileInspector scanner (file-inspector.js) — the only variant with the
10 MB accumulator guard -/

namespace Insp

/-- FileInspector.inspectRegion per-region scanner state. The statistics
maps (geometry types, property samples, WDPAID and IUCN tallies) are
side tallies that do not influence scanning and are not modelled;
featureCount increments for every delimited unit because
processFeatureChunk swallows its own parse errors. -/
structure InspState where
  inFeatures : Bool
  currentFeature : List Char
  braceDepth : Nat
  featureCount : Nat
deriving DecidableEq

/-- Fresh inspector state. -/
def initInsp : InspState :=
  { inFeatures := false, currentFeature := [], braceDepth := 0, featureCount := 0 }

/-- The per-character scanner of inspectRegion, including the guard: a
plain character is appended only while the accumulator is below 10000000
characters; at the ceiling the accumulator is discarded and the brace
depth reset to 0. -/
def inspChar (s : InspState) (c : Char) : InspState :=
  if c = '{' ∧ s.braceDepth = 0 then
    { s with currentFeature := ['{'], braceDepth := 1 }
  else if c = '{' ∧ 0 < s.braceDepth then
    { s with currentFeature := s.currentFeature ++ [c], braceDepth := s.braceDepth + 1 }
  else if c = '}' ∧ 0 < s.braceDepth then
    if s.braceDepth - 1 = 0 then
      { s with currentFeature := [], braceDepth := s.braceDepth - 1,
               featureCount := s.featureCount + 1 }
    else { s with currentFeature := s.currentFeature ++ [c],
                  braceDepth := s.braceDepth - 1 }
  else if 0 < s.braceDepth then
    if s.currentFeature.length < 10000000 then
      { s with currentFeature := s.currentFeature ++ [c] }
    else { s with currentFeature := [], braceDepth := 0 }
  else s

/-- The rl.on('line') handler of inspectRegion: the marker and the scan use
the raw line, the end-of-array check uses the trimmed line. -/
def inspLine (s : InspState) (line : List Char) : InspState :=
  if isMarker line then { s with inFeatures := true }
  else if ¬ s.inFeatures then s
  else if isCloser (jsTrim line) then { s with inFeatures := false }
  else line.foldl inspChar s

/-- A whole inspection run over the file's lines. -/
def inspLines (lines : List (List Char)) : InspState :=
  lines.foldl inspLine initInsp

end Insp

/-! ## TileGenerator spatial index (tile-generator.js, first script) -/

/-- JavaScript numbers as Math.min / Math.max produce them over parsed
coordinates: a finite (rational) value, Infinity, -Infinity or NaN. -/
inductive XQ where
  | fin (q : ℚ)
  | pinf
  | ninf
  | nan
deriving DecidableEq

/-- JavaScript < on extended values: any comparison with NaN is false. -/
def ltX : XQ → XQ → Bool
  | .nan, _ => false
  | _, .nan => false
  | .fin a, .fin b => a < b
  | .fin _, .pinf => true
  | .fin _, .ninf => false
  | .pinf, _ => false
  | .ninf, .ninf => false
  | .ninf, _ => true

/-- JavaScript > on extended values. -/
def gtX (a b : XQ) : Bool := ltX b a

/-- A computed bounding box (possibly degenerate). -/
structure BoundsX where
  minLng : XQ
  minLat : XQ
  maxLng : XQ
  maxLat : XQ
deriving DecidableEq

/-- TileGenerator.boundsIntersect, exactly the negated disjunction of the
source. -/
def boundsIntersect (b1 b2 : BoundsX) : Bool :=
  !(gtX b2.minLng b1.maxLng || ltX b2.maxLng b1.minLng ||
    gtX b2.minLat b1.maxLat || ltX b2.maxLat b1.minLat)

/-- Elements of a JSON array as a Lean list. -/
def jlToList : JsonList → List Json
  | .nil => []
  | .cons x tl => x :: jlToList tl

mutual
/-- The extract closure of TileGenerator.extractCoordinates: flat-map while
the head of the head is an array, return the element list at the pair
level, and wrap anything else as a single element; none models the
TypeError of indexing null. -/
def extractC : Json → Option (List Json)
  | .null => none
  | .arr .nil => some [.arr .nil]
  | .arr (.cons x0 rest) =>
      if isNestedHead x0 then extractList (.cons x0 rest)
      else if x0.isArrJ then some (jlToList (.cons x0 rest))
      else some [.arr (.cons x0 rest)]
  | .bool b => some [.bool b]
  | .num m k => some [.num m k]
  | .str s => some [.str s]
  | .obj fs => some [.obj fs]

/-- coords.flatMap(extract) with exception propagation. -/
def extractList : JsonList → Option (List Json)
  | .nil => some []
  | .cons x tl =>
      match extractC x, extractList tl with
      | some a, some b => some (a ++ b)
      | _, _ => none
end

/-- c[i] coerced to a number for Math.min / Math.max: none (outer) is a
thrown TypeError on null, inner none is a NaN argument (undefined index,
non-numeric component; string coercion, which wellformed data never needs,
is also collapsed to NaN). -/
def jsComp : Json → Nat → Option (Option ℚ)
  | .null, _ => none
  | .arr xs, i =>
      match (jlToList xs).get? i with
      | some (.num m k) => some (some (qVal m k))
      | some _ => some none
      | none => some none
  | _, _ => some none

/-- The mapped component list, with exception propagation. -/
def compList : List Json → Nat → Option (List (Option ℚ))
  | [], _ => some []
  | c :: tl, i =>
      match jsComp c i, compList tl i with
      | some v, some vs => some (v :: vs)
      | _, _ => none

/-- Math.min over a spread argument list: Infinity on no arguments, NaN if
any argument is NaN. -/
def jsMinL (l : List (Option ℚ)) : XQ :=
  if l.any Option.isNone then .nan
  else
    match l.filterMap id with
    | [] => .pinf
    | q :: rest => .fin (rest.foldl min q)

/-- Math.max over a spread argument list: -Infinity on no arguments, NaN if
any argument is NaN. -/
def jsMaxL (l : List (Option ℚ)) : XQ :=
  if l.any Option.isNone then .nan
  else
    match l.filterMap id with
    | [] => .ninf
    | q :: rest => .fin (rest.foldl max q)

/-- TileGenerator.extractCoordinates: empty for falsy geometry or falsy
coordinates, otherwise the extract closure. -/
def extractCoordinates (geometry : Option Json) : Option (List Json) :=
  match geometry with
  | none => some []
  | some g =>
      if ¬ g.jsTruthy then some []
      else
        match g.jsGetProp ("coordinates".toList) with
        | none => some []
        | some c =>
            if ¬ c.jsTruthy then some []
            else extractC c

/-- TileGenerator.calculateBounds: componentwise Math.min / Math.max over
the flattened coordinate list; outer none is an escaped TypeError. -/
def calculateBounds (geometry : Option Json) : Option BoundsX :=
  match extractCoordinates geometry with
  | none => none
  | some cl =>
      match compList cl 0, compList cl 1 with
      | some lngs, some lats =>
          some ⟨jsMinL lngs, jsMinL lats, jsMaxL lngs, jsMaxL lats⟩
      | _, _ => none

/-- One spatial index entry: (chunk, feature) position and its bounds
(the constant region code is omitted). -/
structure IdxEntry where
  chunkIdx : Nat
  featIdx : Nat
  bounds : BoundsX
deriving DecidableEq

/-- Index entries of one chunk's features array. -/
def idxFeatures (chunkIdx featIdx : Nat) : List Json → Option (List IdxEntry)
  | [] => some []
  | f :: tl =>
      match calculateBounds (f.jsGetProp ("geometry".toList)),
        idxFeatures chunkIdx (featIdx + 1) tl with
      | some b, some rest => some (⟨chunkIdx, featIdx, b⟩ :: rest)
      | _, _ => none

/-- Entries of the chunk list from a given chunk index. -/
def idxChunks (i : Nat) : List (List Json) → Option (List IdxEntry)
  | [] => some []
  | c :: tl =>
      match idxFeatures i 0 c, idxChunks (i + 1) tl with
      | some a, some b => some (a ++ b)
      | _, _ => none

/-- TileGenerator.createSpatialIndex over the loaded chunk feature arrays:
an entry is pushed for every feature of every chunk, whatever its bounds;
none models an escaped TypeError. -/
def createSpatialIndex (chunks : List (List Json)) : Option (List IdxEntry) :=
  idxChunks 0 chunks

/-- A bounds value free of NaN and infinities. -/
def finiteBounds (b : BoundsX) : Bool :=
  match b.minLng, b.minLat, b.maxLng, b.maxLat with
  | .fin _, .fin _, .fin _, .fin _ => true
  | _, _, _, _ => false

/-! ## Valid FeatureCollection inputs and the emitted-feature account
(for C1, C2, C8) -/

/-- One source unit on its own line, with or without the separating comma
(the scanner discards depth-0 commas either way). -/
def unitLine (u : Json) (c : Bool) : List Char := ser u ++ (if c then [','] else [])

/-- The chunk-state effect of a delimited unit that parsed to u: kept when
it is a Feature with truthy geometry and the optimizer succeeds, batched,
and flushed at the featuresPerChunk threshold (the chunk-relevant core of
handleComplete). -/
def emitEffect (fpc : Nat) (s : ProcState) (u : Json) : ProcState :=
  if featureOk u then
    match optimizeFeature u with
    | none => s
    | some o =>
        if fpc ≤ (s.currentChunk ++ [o]).length then
          writeChunk { s with currentChunk := s.currentChunk ++ [o],
                              featureCount := s.featureCount + 1 }
        else { s with currentChunk := s.currentChunk ++ [o],
                      featureCount := s.featureCount + 1 }
  else s

/-- The features a source unit contributes to the output. -/
def emitsOf (u : Json) : List Json :=
  if featureOk u then (optimizeFeature u).toList else []

/-- The features the whole source contributes, in document order. -/
def retained : List Json → List Json
  | [] => []
  | u :: tl => emitsOf u ++ retained tl

theorem writeChunk_fields (s : ProcState) :
    (writeChunk s).currentFeature = s.currentFeature ∧
      (writeChunk s).braceDepth = s.braceDepth ∧
      (writeChunk s).inFeatures = s.inFeatures := by
  rw [writeChunk]; split <;> exact ⟨rfl, rfl, rfl⟩

theorem writeChunk_update (s : ProcState) (x : List Char) (d : Nat) (b : Bool) :
    writeChunk { s with currentFeature := x, braceDepth := d, inFeatures := b } =
      { writeChunk s with currentFeature := x, braceDepth := d, inFeatures := b } := by
  by_cases hc : s.currentChunk.length = 0 <;> simp [writeChunk, hc]

theorem emitEffect_update (fpc : Nat) (s : ProcState) (u : Json) (x : List Char)
    (d : Nat) (b : Bool) :
    emitEffect fpc { s with currentFeature := x, braceDepth := d, inFeatures := b } u =
      { emitEffect fpc s u with currentFeature := x, braceDepth := d, inFeatures := b } := by
  rw [emitEffect, emitEffect]
  cases hok : featureOk u
  · simp
  · simp only [if_pos rfl]
    cases hopt : optimizeFeature u with
    | none => simp
    | some o =>
        simp only [writeChunk]
        by_cases hlen : fpc ≤ (s.currentChunk ++ [o]).length <;>
          simp only [List.length_append, List.length_cons, List.length_nil,
            Nat.add_zero, Nat.zero_add] at hlen <;>
          simp [hlen]

theorem emitEffect_fields (fpc : Nat) (s : ProcState) (u : Json) :
    (emitEffect fpc s u).currentFeature = s.currentFeature ∧
      (emitEffect fpc s u).braceDepth = s.braceDepth ∧
      (emitEffect fpc s u).inFeatures = s.inFeatures := by
  rw [emitEffect]
  split
  · split
    · exact ⟨rfl, rfl, rfl⟩
    · split
      · exact writeChunk_fields _
      · exact ⟨rfl, rfl, rfl⟩
  · exact ⟨rfl, rfl, rfl⟩

theorem scanChar_plain {fpc : Nat} {s : ProcState} {c : Char}
    (h1 : c ≠ '{') (h2 : c ≠ '}') (hd : 0 < s.braceDepth) :
    scanChar fpc s c = { s with currentFeature := s.currentFeature ++ [c] } := by
  rw [scanChar, if_neg (fun h => h1 h.1), if_neg (fun h => h1 h.1),
    if_neg (fun h => h2 h.1), if_pos hd]

theorem scanChar_openBrace {fpc : Nat} {s : ProcState} (hd : 0 < s.braceDepth) :
    scanChar fpc s '{' =
      { s with currentFeature := s.currentFeature ++ ['{'],
               braceDepth := s.braceDepth + 1 } := by
  rw [scanChar, if_neg (fun h => by omega), if_pos ⟨rfl, hd⟩]

theorem scanChar_closeBrace {fpc : Nat} {s : ProcState} (hd : 1 < s.braceDepth) :
    scanChar fpc s '}' =
      { s with currentFeature := s.currentFeature ++ ['}'],
               braceDepth := s.braceDepth - 1 } := by
  rw [scanChar, if_neg (fun h => by simp at h), if_neg (fun h => by simp at h),
    if_pos ⟨rfl, by omega⟩, if_neg (by omega)]

theorem scanChars_plain {fpc : Nat} : ∀ (cs : List Char) (s : ProcState),
    (∀ c ∈ cs, c ≠ '{' ∧ c ≠ '}') → 0 < s.braceDepth →
    cs.foldl (scanChar fpc) s = { s with currentFeature := s.currentFeature ++ cs }
  | [], s, _, _ => by simp
  | c :: cs, s, h, hd => by
      have hc := h c (by simp)
      rw [List.foldl_cons, scanChar_plain hc.1 hc.2 hd,
        scanChars_plain cs _ (fun x hx => h x (by simp [hx])) (by simpa using hd)]
      simp

theorem serNum_chars (m : Int) (k : Nat) : ∀ c ∈ serNum m k, c ≠ '{' ∧ c ≠ '}' := by
  intro c hc
  rw [serNum] at hc
  rcases List.mem_append.mp hc with hs | hb
  · have : c = '-' := by
      by_cases hm : m < 0 <;> simp [hm] at hs
      exact hs
    subst this; exact ⟨by decide, by decide⟩
  · rw [serNumBody] at hb
    rcases List.mem_append.mp hb with hip | hfp
    · obtain ⟨d, hd, rfl⟩ := List.mem_map.mp hip
      have hd10 : d < 10 :=
        padDigits_lt k m.natAbs d (List.mem_of_mem_take hd)
      exact ⟨isDig_ne (isDig_dChar hd10) (by decide),
        isDig_ne (isDig_dChar hd10) (by decide)⟩
    · by_cases hk : k = 0
      · simp [hk] at hfp
      · simp only [if_neg hk, List.mem_cons] at hfp
        rcases hfp with rfl | hfp
        · exact ⟨by decide, by decide⟩
        · obtain ⟨d, hd, rfl⟩ := List.mem_map.mp hfp
          have hd10 : d < 10 :=
            padDigits_lt k m.natAbs d (List.mem_of_mem_drop hd)
          exact ⟨isDig_ne (isDig_dChar hd10) (by decide),
            isDig_ne (isDig_dChar hd10) (by decide)⟩

theorem okChar_not_brace {c : Char} (h : okChar c = true) : c ≠ '{' ∧ c ≠ '}' := by
  simp only [okChar, Bool.and_eq_true, decide_eq_true_eq] at h
  exact ⟨h.1.2, h.2⟩

theorem key_chars {k : List Char} (hk : k.all okChar = true) :
    ∀ c ∈ '"' :: k ++ ['"', ':'], c ≠ '{' ∧ c ≠ '}' := by
  intro c hc
  rcases List.mem_cons.mp hc with rfl | hc2
  · exact ⟨by decide, by decide⟩
  · rcases List.mem_append.mp hc2 with hin | hin
    · exact okChar_not_brace (by simpa using List.all_eq_true.mp hk c hin)
    · rcases List.mem_cons.mp hin with rfl | hin2
      · exact ⟨by decide, by decide⟩
      · rcases List.mem_singleton.mp hin2 with rfl
        exact ⟨by decide, by decide⟩

mutual
/-- Scanning a serialized wellformed value inside an open feature (brace
depth positive) appends its text to the accumulator and returns the depth
to its starting value: the scanner delimits exactly the serialized unit. -/
theorem scan_ser : ∀ (u : Json), wfJ u = true → ∀ (fpc : Nat) (s : ProcState),
    0 < s.braceDepth →
    (ser u).foldl (scanChar fpc) s =
      { s with currentFeature := s.currentFeature ++ ser u }
  | .null, _, fpc, s, hd => scanChars_plain _ s (by decide) hd
  | .bool true, _, fpc, s, hd => scanChars_plain _ s (by decide) hd
  | .bool false, _, fpc, s, hd => scanChars_plain _ s (by decide) hd
  | .num m k, _, fpc, s, hd => scanChars_plain _ s (serNum_chars m k) hd
  | .str t, hw, fpc, s, hd => by
      refine scanChars_plain _ s ?_ hd
      intro c hc
      rcases List.mem_cons.mp hc with rfl | hc2
      · exact ⟨by decide, by decide⟩
      · rcases List.mem_append.mp hc2 with hin | hin
        · exact okChar_not_brace
            (by simpa using List.all_eq_true.mp (by simpa [wfJ] using hw) c hin)
        · rcases List.mem_singleton.mp hin with rfl
          exact ⟨by decide, by decide⟩
  | .arr xs, hw, fpc, s, hd => by
      have hw' : wfL xs = true := by simpa [wfJ] using hw
      rw [show ser (.arr xs) = '[' :: (serItems xs ++ [']']) from rfl,
        List.foldl_cons, scanChar_plain (by decide) (by decide) hd,
        List.foldl_append, scan_serItems xs hw' fpc _ (by simpa using hd),
        List.foldl_cons, List.foldl_nil,
        scanChar_plain (by decide) (by decide) (by simpa using hd)]
      simp
  | .obj fs, hw, fpc, s, hd => by
      have hw' : wfF fs = true := by simpa [wfJ] using hw
      rw [show ser (.obj fs) = '{' :: (serFields fs ++ ['}']) from rfl,
        List.foldl_cons, scanChar_openBrace hd,
        List.foldl_append, scan_serFields fs hw' fpc _ (by simp),
        List.foldl_cons, List.foldl_nil, scanChar_closeBrace (by simpa using hd)]
      simp

theorem scan_serItems : ∀ (xs : JsonList), wfL xs = true → ∀ (fpc : Nat) (s : ProcState),
    0 < s.braceDepth →
    (serItems xs).foldl (scanChar fpc) s =
      { s with currentFeature := s.currentFeature ++ serItems xs }
  | .nil, _, fpc, s, hd => by simp [serItems]
  | .cons x tl, hw, fpc, s, hd => by
      have h1 : wfJ x = true ∧ wfL tl = true := by
        simpa [wfL, Bool.and_eq_true] using hw
      rw [show serItems (.cons x tl) = ser x ++ serITail tl from rfl,
        List.foldl_append, scan_ser x h1.1 fpc s hd,
        scan_serITail tl h1.2 fpc _ (by simpa using hd)]
      simp

theorem scan_serITail : ∀ (xs : JsonList), wfL xs = true → ∀ (fpc : Nat) (s : ProcState),
    0 < s.braceDepth →
    (serITail xs).foldl (scanChar fpc) s =
      { s with currentFeature := s.currentFeature ++ serITail xs }
  | .nil, _, fpc, s, hd => by simp [serITail]
  | .cons x tl, hw, fpc, s, hd => by
      have h1 : wfJ x = true ∧ wfL tl = true := by
        simpa [wfL, Bool.and_eq_true] using hw
      rw [show serITail (.cons x tl) = ',' :: (ser x ++ serITail tl) from rfl,
        List.foldl_cons, scanChar_plain (by decide) (by decide) hd,
        List.foldl_append, scan_ser x h1.1 fpc _ (by simpa using hd),
        scan_serITail tl h1.2 fpc _ (by simpa using hd)]
      simp

theorem scan_serFields : ∀ (fs : JsonFields), wfF fs = true → ∀ (fpc : Nat) (s : ProcState),
    0 < s.braceDepth →
    (serFields fs).foldl (scanChar fpc) s =
      { s with currentFeature := s.currentFeature ++ serFields fs }
  | .nil, _, fpc, s, hd => by simp [serFields]
  | .cons k v tl, hw, fpc, s, hd => by
      have h1 : k.all okChar = true ∧ wfJ v = true ∧ wfF tl = true := by
        simpa [wfF, Bool.and_eq_true, and_assoc] using hw
      have hsh : serFields (.cons k v tl) =
          (('"' :: k ++ ['"', ':']) ++ ser v) ++ serFTail tl := by
        simp [serFields]
      rw [hsh, List.foldl_append, List.foldl_append,
        scanChars_plain _ s (key_chars h1.1) hd,
        scan_ser v h1.2.1 fpc _ (by simpa using hd),
        scan_serFTail tl h1.2.2 fpc _ (by simpa using hd)]
      simp

theorem scan_serFTail : ∀ (fs : JsonFields), wfF fs = true → ∀ (fpc : Nat) (s : ProcState),
    0 < s.braceDepth →
    (serFTail fs).foldl (scanChar fpc) s =
      { s with currentFeature := s.currentFeature ++ serFTail fs }
  | .nil, _, fpc, s, hd => by simp [serFTail]
  | .cons k v tl, hw, fpc, s, hd => by
      have h1 : k.all okChar = true ∧ wfJ v = true ∧ wfF tl = true := by
        simpa [wfF, Bool.and_eq_true, and_assoc] using hw
      have hsh : serFTail (.cons k v tl) =
          ((',' :: '"' :: k ++ ['"', ':']) ++ ser v) ++ serFTail tl := by
        simp [serFTail]
      have hpre : ∀ c ∈ ',' :: '"' :: k ++ ['"', ':'], c ≠ '{' ∧ c ≠ '}' := by
        intro c hc
        rcases List.mem_cons.mp hc with rfl | hc2
        · exact ⟨by decide, by decide⟩
        · exact key_chars h1.1 c hc2
      rw [hsh, List.foldl_append, List.foldl_append,
        scanChars_plain _ s hpre hd,
        scan_ser v h1.2.1 fpc _ (by simpa using hd),
        scan_serFTail tl h1.2.2 fpc _ (by simpa using hd)]
      simp
end

theorem scanChar_idle {fpc : Nat} {s : ProcState} {c : Char}
    (h1 : c ≠ '{') (hd : s.braceDepth = 0) : scanChar fpc s c = s := by
  rw [scanChar, if_neg (fun h => h1 h.1), if_neg (fun h => h1 h.1),
    if_neg (by omega), if_neg (by omega)]

theorem ser_obj_last (fs : JsonFields) : (ser (.obj fs)).getLast? = some '}' := by
  rw [show ser (.obj fs) = ('{' :: serFields fs) ++ ['}'] by simp [ser]]
  exact List.getLast?_concat _

theorem handleComplete_serObj {fpc : Nat} {s : ProcState} {fs : JsonFields}
    (hcf : s.currentFeature = ser (.obj fs)) (hw : wfJ (.obj fs) = true) :
    handleComplete fpc s = { emitEffect fpc s (.obj fs) with currentFeature := [] } := by
  rw [handleComplete, hcf, ser_obj_last, if_neg (by decide), parseJson_ser _ hw,
    emitEffect, hcf]

theorem scan_unit (fpc : Nat) (fs : JsonFields) (b : Bool) (s : ProcState)
    (hw : wfJ (.obj fs) = true) (hd : s.braceDepth = 0) :
    (unitLine (.obj fs) b).foldl (scanChar fpc) s =
      { emitEffect fpc s (.obj fs) with currentFeature := [] } := by
  have hw' : wfF fs = true := by simpa [wfJ] using hw
  have hstep1 : scanChar fpc s '{' = { s with currentFeature := ['{'], braceDepth := 1 } := by
    rw [scanChar, if_pos ⟨rfl, hd⟩]
  have hshape : unitLine (.obj fs) b =
      '{' :: (serFields fs ++ (['}'] ++ (if b then [','] else []))) := by
    simp [unitLine, ser]
  rw [hshape, List.foldl_cons, hstep1, List.foldl_append,
    scan_serFields fs hw' fpc _ (by simp), List.foldl_append,
    List.foldl_cons, List.foldl_nil]
  have e2 : (emitEffect fpc s (Json.obj fs)).braceDepth = 0 := by
    rw [(emitEffect_fields fpc s _).2.1, hd]
  have e3 : (emitEffect fpc s (Json.obj fs)).inFeatures = s.inFeatures :=
    (emitEffect_fields fpc s _).2.2
  have hcb : scanChar fpc
      { s with currentFeature := ['{'] ++ serFields fs, braceDepth := 1 } '}' =
      { emitEffect fpc s (.obj fs) with currentFeature := [] } := by
    rw [scanChar, if_neg (by simp), if_neg (by simp), if_pos ⟨rfl, by simp⟩,
      if_pos (by simp)]
    show handleComplete fpc
        { s with currentFeature := ('{' :: serFields fs) ++ ['}'], braceDepth := 0 } = _
    rw [@handleComplete_serObj fpc
      { s with currentFeature := ('{' :: serFields fs) ++ ['}'], braceDepth := 0 }
      fs (by simp [ser]) hw]
    rw [emitEffect_update fpc s (.obj fs) (('{' :: serFields fs) ++ ['}']) 0 s.inFeatures]
    simp [e2, e3]
  show List.foldl (scanChar fpc)
      (scanChar fpc { s with currentFeature := ['{'] ++ serFields fs, braceDepth := 1 } '}')
      (if b then [','] else []) =
    { emitEffect fpc s (.obj fs) with currentFeature := [] }
  rw [hcb]
  have hdone : ({ emitEffect fpc s (.obj fs) with currentFeature := [] } :
      ProcState).braceDepth = 0 := e2
  cases b with
  | false => simp
  | true =>
      rw [if_pos rfl, List.foldl_cons, List.foldl_nil,
        scanChar_idle (by decide) hdone]

/-! ## Line-level behaviour on a whole features array (for C1) -/

/-- The lines of a sequence of source units, each with its trailing-comma
flag. -/
def unitLines : List (Json × Bool) → List (List Char)
  | [] => []
  | p :: tl => unitLine p.1 p.2 :: unitLines tl

/-- The state change a completed unit performs: its chunk effect, with the
text accumulator cleared. -/
def unitStep (fpc : Nat) (s : ProcState) (u : Json) : ProcState :=
  { emitEffect fpc s u with currentFeature := [] }

/-- Chunk indices are assigned in write order: the index counter equals the
number of written chunks, whose recorded indices are 0, 1, 2, .... -/
def idxOk (s : ProcState) : Prop :=
  s.chunkIndex = s.chunks.length ∧
    s.chunks.map Chunk.idx = List.range s.chunks.length

theorem jsTrim_sandwich (a z : Char) (mid : List Char)
    (ha : isWs a = false) (hz : isWs z = false) :
    jsTrim (a :: (mid ++ [z])) = a :: (mid ++ [z]) := by
  have h1 : (a :: (mid ++ [z])).dropWhile isWs = a :: (mid ++ [z]) := by
    simp [List.dropWhile_cons, ha]
  have h2 : (a :: (mid ++ [z])).reverse = z :: (mid.reverse ++ [a]) := by simp
  have h3 : (z :: (mid.reverse ++ [a])).dropWhile isWs = z :: (mid.reverse ++ [a]) := by
    simp [List.dropWhile_cons, hz]
  rw [jsTrim, h1, h2, h3]
  simp

theorem isCloser_brace (rest : List Char) : isCloser ('{' :: rest) = false := by
  simp [isCloser]

theorem processLine_marker (fpc : Nat) (s : ProcState) (l : List Char)
    (hm : isMarker (jsTrim l) = true) :
    processLine fpc s l = { s with inFeatures := true } := by
  simp [processLine, hm]

theorem processLine_idle (fpc : Nat) (s : ProcState) (l : List Char)
    (hm : isMarker (jsTrim l) = false) (hs : s.inFeatures = false) :
    processLine fpc s l = s := by
  simp [processLine, hm, hs]

theorem foldl_idle (fpc : Nat) : ∀ (ls : List (List Char)) (s : ProcState),
    s.inFeatures = false → (∀ l ∈ ls, isMarker (jsTrim l) = false) →
    ls.foldl (processLine fpc) s = s
  | [], _, _, _ => rfl
  | l :: tl, s, hs, hm => by
      rw [List.foldl_cons, processLine_idle fpc s l (hm l (by simp)) hs]
      exact foldl_idle fpc tl s hs (fun x hx => hm x (by simp [hx]))

theorem processLine_closer (fpc : Nat) (s : ProcState) (l : List Char)
    (hm : isMarker (jsTrim l) = false) (hs : s.inFeatures = true)
    (hc : isCloser (jsTrim l) = true) :
    processLine fpc s l = writeChunk { s with inFeatures := false } := by
  simp [processLine, hm, hs, hc]

theorem processLine_scan (fpc : Nat) (s : ProcState) (l : List Char)
    (hm : isMarker (jsTrim l) = false) (hs : s.inFeatures = true)
    (hc : isCloser (jsTrim l) = false) :
    processLine fpc s l = (jsTrim l).foldl (scanChar fpc) s := by
  simp [processLine, hm, hs, hc]

theorem unitLine_trim (fs : JsonFields) (b : Bool) :
    jsTrim (unitLine (.obj fs) b) = unitLine (.obj fs) b := by
  cases b
  · have hsh : unitLine (.obj fs) false = '{' :: (serFields fs ++ ['}']) := by
      simp [unitLine, ser]
    rw [hsh]
    exact jsTrim_sandwich '{' '}' (serFields fs) (by decide) (by decide)
  · have hsh : unitLine (.obj fs) true = '{' :: ((serFields fs ++ ['}']) ++ [',']) := by
      simp [unitLine, ser]
    rw [hsh]
    exact jsTrim_sandwich '{' ',' (serFields fs ++ ['}']) (by decide) (by decide)

theorem processLine_unit (fpc : Nat) (fs : JsonFields) (b : Bool) (s : ProcState)
    (hw : wfJ (.obj fs) = true) (hm : isMarker (unitLine (.obj fs) b) = false)
    (hs : s.inFeatures = true) (hd : s.braceDepth = 0) :
    processLine fpc s (unitLine (.obj fs) b) = unitStep fpc s (.obj fs) := by
  have hcl : isCloser (unitLine (.obj fs) b) = false := by
    have hsh : unitLine (.obj fs) b =
        '{' :: (serFields fs ++ (['}'] ++ (if b then [','] else []))) := by
      simp [unitLine, ser]
    rw [hsh]
    exact isCloser_brace _
  rw [processLine_scan fpc s _ (by rwa [unitLine_trim]) hs (by rwa [unitLine_trim]),
    unitLine_trim]
  exact scan_unit fpc fs b s hw hd

theorem unitStep_fields (fpc : Nat) (s : ProcState) (u : Json) :
    (unitStep fpc s u).inFeatures = s.inFeatures ∧
      (unitStep fpc s u).braceDepth = s.braceDepth := by
  rw [unitStep]
  exact ⟨(emitEffect_fields fpc s u).2.2, (emitEffect_fields fpc s u).2.1⟩

theorem fold_unitLines (fpc : Nat) : ∀ (us : List (Json × Bool)) (s : ProcState),
    (∀ p ∈ us, Json.isObjJ p.1 = true ∧ wfJ p.1 = true ∧
      isMarker (unitLine p.1 p.2) = false) →
    s.inFeatures = true → s.braceDepth = 0 →
    (unitLines us).foldl (processLine fpc) s =
      us.foldl (fun t p => unitStep fpc t p.1) s
  | [], _, _, _, _ => rfl
  | p :: tl, s, hus, hs, hd => by
      obtain ⟨ho, hw, hm⟩ := hus p (by simp)
      have h1 : processLine fpc s (unitLine p.1 p.2) = unitStep fpc s p.1 := by
        rcases hp : p.1 with _ | b' | ⟨m, k⟩ | cs | xs | fs
        · rw [hp] at ho; simp [Json.isObjJ] at ho
        · rw [hp] at ho; simp [Json.isObjJ] at ho
        · rw [hp] at ho; simp [Json.isObjJ] at ho
        · rw [hp] at ho; simp [Json.isObjJ] at ho
        · rw [hp] at ho; simp [Json.isObjJ] at ho
        · rw [hp] at hw hm
          exact processLine_unit fpc fs p.2 s hw hm hs hd
      rw [unitLines, List.foldl_cons, List.foldl_cons, h1]
      exact fold_unitLines fpc tl (unitStep fpc s p.1)
        (fun q hq => hus q (by simp [hq]))
        (by rw [(unitStep_fields fpc s p.1).1]; exact hs)
        (by rw [(unitStep_fields fpc s p.1).2]; exact hd)

theorem concatFeatures_append : ∀ (l1 l2 : List Chunk),
    concatFeatures (l1 ++ l2) = concatFeatures l1 ++ concatFeatures l2
  | [], _ => rfl
  | c :: tl, l2 => by
      rw [List.cons_append, concatFeatures, concatFeatures,
        concatFeatures_append tl l2, List.append_assoc]

theorem writeChunk_account (s : ProcState) :
    concatFeatures (writeChunk s).chunks = concatFeatures s.chunks ++ s.currentChunk ∧
      (writeChunk s).currentChunk = [] := by
  rw [writeChunk]
  by_cases hc : s.currentChunk.length = 0
  · rw [if_pos hc]
    have he : s.currentChunk = [] := List.length_eq_zero.mp hc
    simp [he]
  · rw [if_neg hc]
    exact ⟨by simp [concatFeatures_append, concatFeatures], rfl⟩

theorem emitEffect_account (fpc : Nat) (s : ProcState) (u : Json) :
    concatFeatures (emitEffect fpc s u).chunks ++ (emitEffect fpc s u).currentChunk =
      (concatFeatures s.chunks ++ s.currentChunk) ++ emitsOf u := by
  rw [emitEffect, emitsOf]
  cases hok : featureOk u
  · simp
  · simp only [if_pos rfl]
    cases hopt : optimizeFeature u with
    | none => simp
    | some o =>
        simp only [writeChunk]
        by_cases hlen : fpc ≤ (s.currentChunk ++ [o]).length <;>
          simp only [List.length_append, List.length_cons, List.length_nil,
            Nat.add_zero, Nat.zero_add] at hlen <;>
          simp [hlen, concatFeatures_append, concatFeatures]

theorem unitStep_account (fpc : Nat) (s : ProcState) (u : Json) :
    concatFeatures (unitStep fpc s u).chunks ++ (unitStep fpc s u).currentChunk =
      (concatFeatures s.chunks ++ s.currentChunk) ++ emitsOf u :=
  emitEffect_account fpc s u

theorem fold_unitStep_account (fpc : Nat) :
    ∀ (us : List (Json × Bool)) (s : ProcState),
    concatFeatures ((us.foldl (fun t p => unitStep fpc t p.1) s).chunks) ++
        (us.foldl (fun t p => unitStep fpc t p.1) s).currentChunk =
      (concatFeatures s.chunks ++ s.currentChunk) ++ retained (us.map Prod.fst)
  | [], s => by simp [retained]
  | p :: tl, s => by
      rw [List.foldl_cons, List.map_cons, retained,
        fold_unitStep_account fpc tl (unitStep fpc s p.1),
        unitStep_account fpc s p.1, List.append_assoc]

theorem fold_unitStep_fields (fpc : Nat) :
    ∀ (us : List (Json × Bool)) (s : ProcState),
    (us.foldl (fun t p => unitStep fpc t p.1) s).inFeatures = s.inFeatures ∧
      (us.foldl (fun t p => unitStep fpc t p.1) s).braceDepth = s.braceDepth
  | [], _ => ⟨rfl, rfl⟩
  | p :: tl, s => by
      rw [List.foldl_cons]
      obtain ⟨ha, hb⟩ := fold_unitStep_fields fpc tl (unitStep fpc s p.1)
      exact ⟨by rw [ha, (unitStep_fields fpc s p.1).1],
        by rw [hb, (unitStep_fields fpc s p.1).2]⟩

theorem writeChunk_idxOk (s : ProcState) (h : idxOk s) : idxOk (writeChunk s) := by
  rw [writeChunk]
  by_cases hc : s.currentChunk.length = 0
  · rw [if_pos hc]
    exact h
  · rw [if_neg hc]
    obtain ⟨h1, h2⟩ := h
    refine ⟨by simp [h1], ?_⟩
    simp only [List.map_append, List.map_cons, List.map_nil, List.length_append,
      List.length_cons, List.length_nil]
    rw [h2, h1, List.range_succ]

theorem emitEffect_idxOk (fpc : Nat) (s : ProcState) (u : Json) (h : idxOk s) :
    idxOk (emitEffect fpc s u) := by
  rw [emitEffect]
  split
  · split
    · exact h
    · split
      · exact writeChunk_idxOk _ h
      · exact h
  · exact h

theorem fold_unitStep_idxOk (fpc : Nat) :
    ∀ (us : List (Json × Bool)) (s : ProcState), idxOk s →
    idxOk (us.foldl (fun t p => unitStep fpc t p.1) s)
  | [], _, h => h
  | p :: tl, s, h => by
      rw [List.foldl_cons]
      exact fold_unitStep_idxOk fpc tl (unitStep fpc s p.1)
        (emitEffect_idxOk fpc s p.1 h)

theorem retained_filterMap : ∀ us : List Json,
    retained us =
      us.filterMap (fun u => if featureOk u then optimizeFeature u else none)
  | [] => rfl
  | u :: tl => by
      rw [retained, List.filterMap_cons, retained_filterMap tl, emitsOf]
      cases hok : featureOk u
      · simp
      · cases optimizeFeature u <;> simp

/-! ## State invariants of the extractor (for C9, C10) -/

/-- The live retention invariant: the batch holds fewer than
featuresPerChunk features, and between features (brace depth 0) the
text accumulator is empty. -/
def memInv (fpc : Nat) (s : ProcState) : Prop :=
  s.currentChunk.length < fpc ∧ (s.braceDepth = 0 → s.currentFeature = [])

/-- Every written chunk is nonempty and its metadata count equals its
features array length. -/
def chunksOk (s : ProcState) : Prop :=
  ∀ c ∈ s.chunks, 0 < c.features.length ∧ c.count = c.features.length

theorem writeChunk_batch {fpc : Nat} (h0 : 0 < fpc) (s : ProcState) :
    (writeChunk s).currentChunk.length < fpc ∨
      (writeChunk s).currentChunk = s.currentChunk := by
  rw [writeChunk]
  split
  · exact Or.inr rfl
  · exact Or.inl (by simpa using h0)

theorem writeChunk_chunksOk {s : ProcState} (h : chunksOk s) : chunksOk (writeChunk s) := by
  rw [writeChunk]
  split
  · exact h
  · intro c hc
    rcases List.mem_append.mp hc with hin | hin
    · exact h c hin
    · rcases List.mem_singleton.mp hin with rfl
      refine ⟨by simpa using Nat.pos_of_ne_zero (by assumption), rfl⟩

theorem handleComplete_inv {fpc : Nat} (h0 : 0 < fpc) {s : ProcState}
    (h : s.currentChunk.length < fpc) :
    (handleComplete fpc s).currentChunk.length < fpc ∧
      (handleComplete fpc s).currentFeature = [] ∧
      (handleComplete fpc s).braceDepth = s.braceDepth := by
  refine ⟨?_, rfl, ?_⟩
  · rw [handleComplete]
    split
    · simpa using h
    · split
      · split
        · simpa using h
        · split
          · rw [writeChunk]
            split
            · simp_all
            · simpa using h0
          · simp only [List.length_append, List.length_cons, List.length_nil] at *
            omega
      · simpa using h
  · rw [handleComplete]
    split
    · rfl
    · split
      · split
        · rfl
        · split
          · exact (writeChunk_fields _).2.1
          · rfl
      · rfl

theorem handleComplete_chunksOk {fpc : Nat} {s : ProcState} (h : chunksOk s) :
    chunksOk (handleComplete fpc s) := by
  have hgen : ∀ s1 : ProcState, chunksOk s1 →
      chunksOk { s1 with currentFeature := ([] : List Char) } := fun s1 h1 => h1
  rw [handleComplete]
  split
  · exact hgen _ h
  · split
    · split
      · exact hgen _ h
      · split
        · exact hgen _ (writeChunk_chunksOk h)
        · exact hgen _ h
    · exact hgen _ h

theorem scanChar_inv {fpc : Nat} (h0 : 0 < fpc) {s : ProcState} (c : Char)
    (h : memInv fpc s) : memInv fpc (scanChar fpc s c) := by
  rw [scanChar]
  split
  · exact ⟨h.1, by intro hd; simp at hd⟩
  · split
    · exact ⟨h.1, by intro hd; simp at hd⟩
    · split
      · split
        · have := @handleComplete_inv fpc h0
            { s with currentFeature := s.currentFeature ++ [c],
                     braceDepth := s.braceDepth - 1 } h.1
          exact ⟨this.1, fun _ => this.2.1⟩
        · exact ⟨h.1, by intro hd; simp at hd; omega⟩
      · split
        · refine ⟨h.1, fun hd => ?_⟩
          have hd2 : s.braceDepth = 0 := by simpa using hd
          omega
        · exact h

theorem scanChar_chunksOk {fpc : Nat} {s : ProcState} (c : Char) (h : chunksOk s) :
    chunksOk (scanChar fpc s c) := by
  rw [scanChar]
  split
  · exact h
  · split
    · exact h
    · split
      · split
        · exact handleComplete_chunksOk h
        · exact h
      · split
        · exact h
        · exact h

theorem scanChars_inv {fpc : Nat} (h0 : 0 < fpc) :
    ∀ (cs : List Char) (s : ProcState), memInv fpc s →
      memInv fpc (cs.foldl (scanChar fpc) s)
  | [], _, h => h
  | c :: cs, _, h => scanChars_inv h0 cs _ (scanChar_inv h0 c h)

theorem scanChars_chunksOk {fpc : Nat} :
    ∀ (cs : List Char) (s : ProcState), chunksOk s →
      chunksOk (cs.foldl (scanChar fpc) s)
  | [], _, h => h
  | c :: cs, _, h => scanChars_chunksOk cs _ (scanChar_chunksOk c h)

theorem processLine_inv {fpc : Nat} (h0 : 0 < fpc) {s : ProcState} (l : List Char)
    (h : memInv fpc s) : memInv fpc (processLine fpc s l) := by
  rw [processLine]
  split
  · exact h
  · split
    · exact h
    · split
      · constructor
        · rcases writeChunk_batch h0 { s with inFeatures := false } with hw | hw
          · exact hw
          · rw [hw]; exact h.1
        · have hf := writeChunk_fields { s with inFeatures := false }
          rw [hf.1, hf.2.1]
          exact h.2
      · exact scanChars_inv h0 _ s h

theorem processLine_chunksOk {fpc : Nat} {s : ProcState} (l : List Char)
    (h : chunksOk s) : chunksOk (processLine fpc s l) := by
  rw [processLine]
  split
  · exact h
  · split
    · exact h
    · split
      · exact writeChunk_chunksOk h
      · exact scanChars_chunksOk _ s h

theorem processLines_inv {fpc : Nat} (h0 : 0 < fpc) (lines : List (List Char)) :
    memInv fpc (processLines fpc lines) := by
  have : ∀ (ls : List (List Char)) (s : ProcState), memInv fpc s →
      memInv fpc (ls.foldl (processLine fpc) s) := by
    intro ls
    induction ls with
    | nil => exact fun s h => h
    | cons l ls ih => exact fun s h => ih _ (processLine_inv h0 l h)
  exact this _ initState ⟨by simpa [initState] using h0, fun _ => rfl⟩

theorem processLines_chunksOk (fpc : Nat) (lines : List (List Char)) :
    chunksOk (processLines fpc lines) := by
  have : ∀ (ls : List (List Char)) (s : ProcState), chunksOk s →
      chunksOk (ls.foldl (processLine fpc) s) := by
    intro ls
    induction ls with
    | nil => exact fun s h => h
    | cons l ls ih => exact fun s h => ih _ (processLine_chunksOk l h)
  exact this _ initState (by intro c hc; simp [initState] at hc)

/-- Every chunk the FeatureProcessor writes is nonempty with a correct
metadata count. -/
def fpChunksOk (s : FP.FPState) : Prop :=
  ∀ c ∈ s.chunks, 0 < c.features.length ∧ c.count = c.features.length

theorem fpWriteChunk_chunksOk {s : FP.FPState} (h : fpChunksOk s) :
    fpChunksOk (FP.fpWriteChunk s) := by
  rw [FP.fpWriteChunk]
  split
  · exact h
  · intro c hc
    rcases List.mem_append.mp hc with hin | hin
    · exact h c hin
    · rcases List.mem_singleton.mp hin with rfl
      refine ⟨by simpa using Nat.pos_of_ne_zero (by assumption), rfl⟩

theorem addFeature_chunksOk {region : List Char} {fpc : Nat} {s : FP.FPState}
    (f : Json) (h : fpChunksOk s) : fpChunksOk (FP.addFeature region fpc s f) := by
  rw [FP.addFeature]
  split
  · exact fpWriteChunk_chunksOk h
  · exact h

theorem runFP_chunksOk (region : List Char) (fpc : Nat) (fs : List Json) :
    fpChunksOk (FP.runFP region fpc fs) := by
  have : ∀ (l : List Json) (s : FP.FPState), fpChunksOk s →
      fpChunksOk (l.foldl (FP.addFeature region fpc) s) := by
    intro l
    induction l with
    | nil => exact fun s h => h
    | cons f l ih => exact fun s h => ih _ (addFeature_chunksOk f h)
  have hfold := this fs FP.initFP (by intro c hc; simp [FP.initFP] at hc)
  rw [FP.runFP, FP.finish]
  split
  · exact fpWriteChunk_chunksOk hfold
  · exact hfold

/-! ## Wellformed coordinate trees and the rounding transform (for C4) -/

/-- A coordinate pair: an array of exactly two numbers. -/
def isPairJ : Json → Bool
  | .arr (.cons (.num _ _) (.cons (.num _ _) .nil)) => true
  | _ => false

mutual
/-- Wellformed coordinate tree of the given nesting depth: depth 0 is a
bare pair (Point), depth n+1 a nonempty array of depth-n trees
(LineString at 1, Polygon at 2, MultiPolygon at 3). -/
def wfCoords : Nat → Json → Bool
  | 0, j => isPairJ j
  | n + 1, .arr (.cons x tl) => wfCL n (.cons x tl)
  | _ + 1, _ => false

/-- All elements wellformed at the given depth. -/
def wfCL : Nat → JsonList → Bool
  | _, .nil => true
  | n, .cons x tl => wfCoords n x && wfCL n tl
end

mutual
/-- The intended rounding transform: every pair of the tree rounded
componentwise via round(x * 100000) / 100000. -/
def roundAllC : Nat → Json → Json
  | 0, .arr (.cons (.num m1 k1) (.cons (.num m2 k2) .nil)) =>
      .arr (.cons (roundTo5 m1 k1) (.cons (roundTo5 m2 k2) .nil))
  | 0, j => j
  | n + 1, .arr xs => .arr (roundAllL n xs)
  | _ + 1, j => j

/-- Pointwise rounding transform on array elements. -/
def roundAllL : Nat → JsonList → JsonList
  | _, .nil => .nil
  | n, .cons x tl => .cons (roundAllC n x) (roundAllL n tl)
end

theorem wfCoords_isArr {n : Nat} {j : Json} (h : wfCoords n j = true) : j.isArrJ = true := by
  cases n with
  | zero =>
      cases j with
      | arr xs => rfl
      | _ => simp [wfCoords, isPairJ] at h
  | succ n =>
      cases j with
      | arr xs => rfl
      | _ => simp [wfCoords] at h

theorem roundPair_wf {x : Json} (h : isPairJ x = true) :
    roundPair x = some (roundAllC 0 x) := by
  cases x with
  | arr xs =>
      cases xs with
      | nil => simp [isPairJ] at h
      | cons a tl =>
          cases a with
          | num m1 k1 =>
              cases tl with
              | nil => simp [isPairJ] at h
              | cons b tl2 =>
                  cases b with
                  | num m2 k2 =>
                      cases tl2 with
                      | nil => rfl
                      | cons c tl3 => simp [isPairJ] at h
                  | _ => simp [isPairJ] at h
          | _ => simp [isPairJ] at h
  | _ => simp [isPairJ] at h

theorem roundPairs_wf : ∀ {xs : JsonList}, wfCL 0 xs = true →
    roundPairs xs = some (roundAllL 0 xs)
  | .nil, _ => rfl
  | .cons x tl, h => by
      simp only [wfCL, Bool.and_eq_true] at h
      have h1 : isPairJ x = true := by have hx := h.1; simpa [wfCoords] using hx
      simp only [roundPairs, roundPair_wf h1, roundPairs_wf h.2, roundAllL]

theorem wfCoords_zero (j : Json) : wfCoords 0 j = isPairJ j := by simp [wfCoords]

theorem pair_not_nested {x : Json} (h : isPairJ x = true) : isNestedHead x = false := by
  cases x with
  | arr xs =>
      cases xs with
      | nil => rfl
      | cons y0 tl =>
          cases y0 with
          | null => rfl
          | bool b => rfl
          | num m k => rfl
          | str s => rfl
          | arr ys => simp [isPairJ] at h
          | obj fs => rfl
  | null => rfl
  | bool b => rfl
  | num m k => rfl
  | str s => rfl
  | obj fs => rfl

mutual
theorem simplify_wf : ∀ (n : Nat) (c : Json), wfCoords (n + 1) c = true →
    simplifyCoords c = some (roundAllC (n + 1) c)
  | n, .null, h => by simp [wfCoords] at h
  | n, .bool b, h => by simp [wfCoords] at h
  | n, .num m k, h => by simp [wfCoords] at h
  | n, .str s, h => by simp [wfCoords] at h
  | n, .obj fs, h => by simp [wfCoords] at h
  | n, .arr .nil, h => by simp [wfCoords] at h
  | n, .arr (.cons x tl), h => by
      have hcl : wfCL n (.cons x tl) = true := by simpa [wfCoords] using h
      have hx : wfCoords n x = true ∧ wfCL n tl = true := by
        simpa [wfCL, Bool.and_eq_true] using hcl
      cases n with
      | zero =>
          have hpx : isPairJ x = true := by
            have := hx.1; simpa [wfCoords] using this
          have h1 : isNestedHead x = false := pair_not_nested hpx
          have h2 : x.isArrJ = true := wfCoords_isArr hx.1
          simp only [simplifyCoords, h1, h2, roundPairs_wf hcl, roundAllC]
          simp
      | succ m =>
          have h1 : isNestedHead x = true := by
            cases x with
            | arr xs =>
                cases xs with
                | nil => simp [wfCoords] at hx
                | cons y0 ytl =>
                    have hy0 : wfCoords m y0 = true := by
                      have := hx.1
                      simp only [wfCoords, wfCL, Bool.and_eq_true] at this
                      exact this.1
                    simpa [isNestedHead] using wfCoords_isArr hy0
            | null => simp [wfCoords] at hx
            | bool b => simp [wfCoords] at hx
            | num mm kk => simp [wfCoords] at hx
            | str s => simp [wfCoords] at hx
            | obj fs => simp [wfCoords] at hx
          simp only [simplifyCoords, h1, simplifyL_wf m (.cons x tl) hcl, roundAllC]
          simp
termination_by n c => (n, sizeOf c)

theorem simplifyL_wf : ∀ (n : Nat) (xs : JsonList), wfCL (n + 1) xs = true →
    simplifyList xs = some (roundAllL (n + 1) xs)
  | _, .nil, _ => rfl
  | n, .cons x tl, h => by
      have hx : wfCoords (n + 1) x = true ∧ wfCL (n + 1) tl = true := by
        simpa [wfCL, Bool.and_eq_true] using h
      simp only [simplifyList, simplify_wf n x hx.1, simplifyL_wf n tl hx.2, roundAllL]
termination_by n xs => (n, sizeOf xs)
end

/-! ## Claim theorems -/

/-- A Feature whose geometry has an empty coordinates array: extract
returns [coords] for it, whose components index to undefined, so Math.min
and Math.max produce NaN bounds. -/
def c6Feature : Json :=
  .obj (.cons "type".toList (.str "Feature".toList)
    (.cons "geometry".toList (.obj (.cons "type".toList (.str "Polygon".toList)
      (.cons "coordinates".toList (.arr .nil) .nil))) .nil))

/-- A Feature whose geometry lacks a coordinates key: the coordinate list
is empty and Math.min() / Math.max() give Infinity and -Infinity. -/
def c6FeatureNoCoords : Json :=
  .obj (.cons "type".toList (.str "Feature".toList)
    (.cons "geometry".toList (.obj (.cons "type".toList (.str "Polygon".toList) .nil))
      .nil))

theorem simplify_pair : ∀ {c : Json}, isPairJ c = true → simplifyCoords c = some c
  | .arr (.cons (.num _ _) (.cons (.num _ _) .nil)), _ => rfl
  | .arr .nil, h => by simp [isPairJ] at h
  | .arr (.cons .null _), h => by simp [isPairJ] at h
  | .arr (.cons (.bool _) _), h => by simp [isPairJ] at h
  | .arr (.cons (.str _) _), h => by simp [isPairJ] at h
  | .arr (.cons (.arr _) _), h => by simp [isPairJ] at h
  | .arr (.cons (.obj _) _), h => by simp [isPairJ] at h
  | .arr (.cons (.num _ _) .nil), h => by simp [isPairJ] at h
  | .arr (.cons (.num _ _) (.cons .null _)), h => by simp [isPairJ] at h
  | .arr (.cons (.num _ _) (.cons (.bool _) _)), h => by simp [isPairJ] at h
  | .arr (.cons (.num _ _) (.cons (.str _) _)), h => by simp [isPairJ] at h
  | .arr (.cons (.num _ _) (.cons (.arr _) _)), h => by simp [isPairJ] at h
  | .arr (.cons (.num _ _) (.cons (.obj _) _)), h => by simp [isPairJ] at h
  | .arr (.cons (.num _ _) (.cons (.num _ _) (.cons _ _))), h => by simp [isPairJ] at h
  | .null, h => by simp [isPairJ] at h
  | .bool _, h => by simp [isPairJ] at h
  | .num _ _, h => by simp [isPairJ] at h
  | .str _, h => by simp [isPairJ] at h
  | .obj _, h => by simp [isPairJ] at h

/-- A Point feature whose longitude 12.3456789 has more than 5 decimal
places, so rounding would change it. -/
def c4Point : Json :=
  .obj (.cons "type".toList (.str "Feature".toList)
    (.cons "geometry".toList (.obj (.cons "type".toList (.str "Point".toList)
      (.cons "coordinates".toList
        (.arr (.cons (.num 123456789 7) (.cons (.num 2 0) .nil))) .nil))) .nil))

/-- The reduced properties of a feature that has no properties object. -/
def c4Props : Json :=
  .obj (.cons "name".toList (.str [])
    (.cons "designation".toList (.str [])
      (.cons "iucn".toList (.str [])
        (.cons "country".toList (.str [])
          (.cons "area".toList (.num 0 0)
            (.cons "wdpaid".toList (.str []) .nil))))))

/-- C4 counterexample: the claim says the optimizer rounds every numeric
coordinate component at every depth, Point included; on this Point feature
optimizeFeature returns the coordinates unchanged (the simplifyCoords
closure hits its terminal branch) even though rounding would change the
value 12.3456789 to 12.34568. -/
theorem c4_point_coordinate_not_rounded :
    optimizeFeature c4Point = some (.obj (.cons "type".toList (.str "Feature".toList)
      (.cons "geometry".toList (.obj (.cons "type".toList (.str "Point".toList)
        (.cons "coordinates".toList
          (.arr (.cons (.num 123456789 7) (.cons (.num 2 0) .nil))) .nil)))
      (.cons "properties".toList c4Props .nil)))) ∧
    roundTo5 123456789 7 = .num 1234568 5 ∧
    qVal 123456789 7 ≠ qVal 1234568 5 := by
  refine ⟨by decide, ?_, ?_⟩
  · have : jsRound (qVal 123456789 7 * 100000) = 1234568 := by
      rw [jsRound, qVal, Int.floor_eq_iff]
      norm_num
    rw [roundTo5, this]
  · rw [qVal, qVal]
    norm_num

/-- C4 amended: the rounding round(x * 100000) / 100000 is applied to every
numeric coordinate component at every depth at which elements are arrays
(LineString, Polygon, MultiPolygon); a bare Point pair is returned
unchanged, unrounded. -/
theorem c4_rounding_by_depth :
    (∀ (n : Nat) (c : Json), wfCoords (n + 1) c = true →
      simplifyCoords c = some (roundAllC (n + 1) c)) ∧
    (∀ c : Json, wfCoords 0 c = true → simplifyCoords c = some c) :=
  ⟨simplify_wf, fun c hc => simplify_pair (by simpa [wfCoords] using hc)⟩

/-- Witness for c4_rounding_by_depth at a concrete LineString and a
concrete Point. -/
theorem c4_rounding_by_depth_witness :
    (wfCoords 1 (.arr (.cons (.arr (.cons (.num 123456789 7) (.cons (.num 2 0) .nil)))
      .nil)) = true ∧
     simplifyCoords (.arr (.cons (.arr (.cons (.num 123456789 7) (.cons (.num 2 0) .nil)))
      .nil)) = some (roundAllC 1 (.arr (.cons (.arr (.cons (.num 123456789 7)
        (.cons (.num 2 0) .nil))) .nil)))) ∧
    (wfCoords 0 (.arr (.cons (.num 15 1) (.cons (.num 25 1) .nil))) = true ∧
     simplifyCoords (.arr (.cons (.num 15 1) (.cons (.num 25 1) .nil))) =
       some (.arr (.cons (.num 15 1) (.cons (.num 25 1) .nil)))) :=
  ⟨⟨by decide, c4_rounding_by_depth.1 0 _ (by decide)⟩,
   ⟨by decide, c4_rounding_by_depth.2 _ (by decide)⟩⟩

/-- The features-array opening line of the test inputs. -/
def markerLine : List Char := "\"features\": [".toList

/-- A line that opens an object and an inner array without closing them,
leaving the scanner at brace depth 1. -/
def c3Open : List Char := ['{', '"', 'a', '"', ':', '[']

/-- C3 counterexample: the claim says a trimmed line equal to '],' arriving
while brace depth is positive does not end the features array; in the code
the end-of-array check runs before the scanner and has no depth guard, so
after the marker, an unclosed object line and a '],' line, the state has
left the features array (inFeatures = false) at brace depth 1, and a valid
feature on the next line is never emitted. -/
theorem c3_closer_fires_at_positive_depth :
    (processLines 50 [markerLine, c3Open, [']', ',']]).inFeatures = false ∧
    (processLines 50 [markerLine, c3Open, [']', ',']]).braceDepth = 1 ∧
    (processLines 50 [markerLine, c3Open, [']', ','],
      ser c4Point ++ [','], [']', '}']]).featureCount = 0 := by
  refine ⟨by decide, by decide, by decide⟩

/-- C3 amended: the extractor leaves the features state exactly when the
trimmed line equals ']', '],' or ']}' — regardless of brace depth — and
flushes the final chunk; while outside the features state every line is
ignored except that a line containing '"features":' and '[' (the marker,
checked first in any state) re-enters it. -/
theorem c3_transition_characterization (fpc : Nat) (s : ProcState) (l : List Char) :
    (isMarker (jsTrim l) = true →
      processLine fpc s l = { s with inFeatures := true }) ∧
    (isMarker (jsTrim l) = false → s.inFeatures = true → isCloser (jsTrim l) = true →
      processLine fpc s l = writeChunk { s with inFeatures := false }) ∧
    (isMarker (jsTrim l) = false → s.inFeatures = false →
      processLine fpc s l = s) ∧
    (isMarker (jsTrim l) = false → s.inFeatures = true → isCloser (jsTrim l) = false →
      processLine fpc s l = (jsTrim l).foldl (scanChar fpc) s) := by
  refine ⟨fun hm => ?_, fun hm hs hc => ?_, fun hm hs => ?_, fun hm hs hc => ?_⟩
  · simp [processLine, hm]
  · simp [processLine, hm, hs, hc]
  · simp [processLine, hm, hs]
  · simp [processLine, hm, hs, hc]

/-- A mid-feature state at brace depth 1 (witness input). -/
def c3State : ProcState :=
  { inFeatures := true, currentFeature := ['{'], braceDepth := 1,
    currentChunk := [], chunkIndex := 0, featureCount := 0, chunks := [] }

/-- Witness for c3_transition_characterization: a '],' line at brace
depth 1 leaves the features state. -/
theorem c3_transition_characterization_witness :
    processLine 50 c3State [']', ','] =
      writeChunk { c3State with inFeatures := false } :=
  (c3_transition_characterization 50 c3State [']', ',']).2.1 (by decide) rfl (by decide)

/-- C5: the bounding-box intersection test returns
!(b.minLng > a.maxLng || b.maxLng < a.minLng || b.minLat > a.maxLat ||
b.maxLat < a.minLat), so boxes touching at an edge or corner count as
intersecting: A = '{'0,0,10,10'}' and B = '{'10,10,20,20'}' intersect, and
B' = '{'10.01,10.01,20,20'}' does not intersect A. -/
theorem c5_boundsIntersect_formula :
    (∀ a b : BoundsX, boundsIntersect a b =
      !(gtX b.minLng a.maxLng || ltX b.maxLng a.minLng ||
        gtX b.minLat a.maxLat || ltX b.maxLat a.minLat)) ∧
    boundsIntersect ⟨.fin 0, .fin 0, .fin 10, .fin 10⟩
      ⟨.fin 10, .fin 10, .fin 20, .fin 20⟩ = true ∧
    boundsIntersect ⟨.fin 0, .fin 0, .fin 10, .fin 10⟩
      ⟨.fin (1001 / 100), .fin (1001 / 100), .fin 20, .fin 20⟩ = false :=
  ⟨fun _ _ => rfl, by norm_num [boundsIntersect, gtX, ltX],
    by norm_num [boundsIntersect, gtX, ltX]⟩

/-- C6: the claim says createSpatialIndex never inserts an entry whose
bounds include NaN or Infinity and that a geometry with zero coordinates
produces no entry; the code has no such exclusion: a feature whose
geometry has an empty coordinates array gets an index entry with NaN
bounds, and one without a coordinates key gets an entry with Infinity
bounds. This theorem evaluates the code at those failing inputs. -/
theorem c6_createSpatialIndex_degenerate_entries :
    createSpatialIndex [[c6Feature]] =
      some [⟨0, 0, ⟨.nan, .nan, .nan, .nan⟩⟩] ∧
    createSpatialIndex [[c6FeatureNoCoords]] =
      some [⟨0, 0, ⟨.pinf, .pinf, .ninf, .ninf⟩⟩] ∧
    finiteBounds ⟨.nan, .nan, .nan, .nan⟩ = false ∧
    finiteBounds ⟨.pinf, .pinf, .ninf, .ninf⟩ = false := by
  refine ⟨by decide, by decide, rfl, rfl⟩

/-- C7: with featuresPerChunk = 2, adding 5 features and finishing produces
exactly 3 chunks with feature counts [2, 2, 1]: a chunk is written each
time the batch reaches the threshold and finish() flushes the remainder. -/
theorem c7_fp_chunking (region : List Char) (f1 f2 f3 f4 f5 : Json) :
    ((FP.runFP region 2 [f1, f2, f3, f4, f5]).chunks.map
      (fun c => c.features.length)) = [2, 2, 1] ∧
    (FP.runFP region 2 [f1, f2, f3, f4, f5]).chunks.length = 3 := by
  constructor <;>
    simp [FP.runFP, FP.addFeature, FP.fpWriteChunk, FP.finish, FP.initFP]

/-- C9: the memory bound, formalized over the fold state of the extractor
(live memory is what the state retains): after processing any prefix of
the input lines — every instant of the stream — the state holds only the
current feature text and an in-memory batch of fewer than featuresPerChunk
features, and between features (brace depth 0) the text accumulator is
empty; nothing else of the input is retained (written chunks live on
disk), so live memory is O(current feature text + current batch),
independent of the number of lines consumed. -/
theorem c9_memory_retention (fpc : Nat) (h0 : 1 ≤ fpc) (lines : List (List Char)) :
    (processLines fpc lines).currentChunk.length < fpc ∧
    ((processLines fpc lines).braceDepth = 0 →
      (processLines fpc lines).currentFeature = []) :=
  processLines_inv h0 lines

/-- Witness for c9_memory_retention at featuresPerChunk 50 and a small
input. -/
theorem c9_memory_retention_witness :
    (processLines 50 [markerLine, ser c4Point ++ [','], [']', '}']]).currentChunk.length
      < 50 ∧
    ((processLines 50 [markerLine, ser c4Point ++ [','], [']', '}']]).braceDepth = 0 →
      (processLines 50 [markerLine, ser c4Point ++ [','], [']', '}']]).currentFeature
        = []) :=
  c9_memory_retention 50 (by decide) [markerLine, ser c4Point ++ [','], [']', '}']]

/-- C10: no chunk writer ever writes an empty chunk: both writeChunk
variants return without writing on an empty batch, and in any run (any
feature sequence through the FeatureProcessor, any line sequence through
the streaming extractor) every written chunk has at least one feature and
a metadata count equal to its features array length. -/
theorem c10_no_empty_chunks :
    (∀ s : ProcState, s.currentChunk = [] → writeChunk s = s) ∧
    (∀ s : FP.FPState, s.currentChunk = [] → FP.fpWriteChunk s = s) ∧
    (∀ (region : List Char) (fpc : Nat) (fs : List Json),
      ∀ c ∈ (FP.runFP region fpc fs).chunks,
        0 < c.features.length ∧ c.count = c.features.length) ∧
    (∀ (fpc : Nat) (lines : List (List Char)),
      ∀ c ∈ (processLines fpc lines).chunks,
        0 < c.features.length ∧ c.count = c.features.length) := by
  refine ⟨?_, ?_, ?_, ?_⟩
  · intro s hs; rw [writeChunk]; simp [hs]
  · intro s hs; rw [FP.fpWriteChunk]; simp [hs]
  · exact fun region fpc fs => runFP_chunksOk region fpc fs
  · exact fun fpc lines => processLines_chunksOk fpc lines

/-- Witness for c10_no_empty_chunks: the guards at empty states, and the
wellformedness of a concretely written chunk. -/
theorem c10_no_empty_chunks_witness :
    writeChunk initState = initState ∧
    FP.fpWriteChunk FP.initFP = FP.initFP ∧
    (0 < (Chunk.mk [FP.fpOptimized ['a', 'f'] 0 .null] 0 1).features.length ∧
      (Chunk.mk [FP.fpOptimized ['a', 'f'] 0 .null] 0 1).count =
        (Chunk.mk [FP.fpOptimized ['a', 'f'] 0 .null] 0 1).features.length) :=
  ⟨c10_no_empty_chunks.1 initState rfl,
   c10_no_empty_chunks.2.1 FP.initFP rfl,
   c10_no_empty_chunks.2.2.1 ['a', 'f'] 1 [.null]
     (Chunk.mk [FP.fpOptimized ['a', 'f'] 0 .null] 0 1) (by decide)⟩

/-- A valid FeatureCollection input as lines: header lines, the features
marker line, one serialized feature unit per line with its array-comma
flag, the array closer line, and trailer lines. -/
def fcLines (pre : List (List Char)) (mline : List Char) (us : List (Json × Bool))
    (cl : List Char) (post : List (List Char)) : List (List Char) :=
  pre ++ mline :: (unitLines us ++ cl :: post)

set_option maxRecDepth 8000 in
/-- C1 counterexample: a syntactically wellformed Feature object with a
truthy geometry that merely lacks a coordinates key is dropped by the
extractor (the optimizer dereferences coordinates[0], and the thrown
TypeError is swallowed), so the produced chunks exclude a feature that is
neither malformed nor lacking geometry, against the claim's "excluding
exactly". -/
theorem c1_geometry_without_coordinates_dropped :
    wfJ c6FeatureNoCoords = true ∧ featureOk c6FeatureNoCoords = true ∧
      concatFeatures
        (processLines 2 (fcLines [] markerLine [(c6FeatureNoCoords, false)] [']'] [])).chunks
        = [] := by
  refine ⟨by decide, by decide, by decide⟩

/-- C1 (amended): for a valid FeatureCollection input — header lines
without the features marker, the marker line, one wellformed serialized
object unit per line none containing the marker text, the array closer,
and trailer lines without the marker — the concatenation of the produced
chunks' features arrays in chunk order equals, in document order, the
optimized images of exactly those units that are Features with truthy
geometry accepted by the optimizer (a geometry without a usable
coordinates array is also dropped); chunk indices ascend 0, 1, 2, ... in
write order and every chunk is nonempty with a correct metadata count. -/
theorem c1_chunks_preserve_document_order
    (fpc : Nat) (pre post : List (List Char)) (mline cl : List Char)
    (us : List (Json × Bool))
    (hpre : ∀ l ∈ pre, isMarker (jsTrim l) = false)
    (hm : isMarker (jsTrim mline) = true)
    (hus : ∀ p ∈ us, Json.isObjJ p.1 = true ∧ wfJ p.1 = true ∧
      isMarker (unitLine p.1 p.2) = false)
    (hclm : isMarker (jsTrim cl) = false) (hcl : isCloser (jsTrim cl) = true)
    (hpost : ∀ l ∈ post, isMarker (jsTrim l) = false) :
    concatFeatures (processLines fpc (fcLines pre mline us cl post)).chunks =
        retained (us.map Prod.fst) ∧
      retained (us.map Prod.fst) =
        (us.map Prod.fst).filterMap
          (fun u => if featureOk u then optimizeFeature u else none) ∧
      (processLines fpc (fcLines pre mline us cl post)).chunks.map Chunk.idx =
        List.range (processLines fpc (fcLines pre mline us cl post)).chunks.length ∧
      ∀ c ∈ (processLines fpc (fcLines pre mline us cl post)).chunks,
        0 < c.features.length ∧ c.count = c.features.length := by
  have h0 : processLines fpc (fcLines pre mline us cl post) =
      (cl :: post).foldl (processLine fpc)
        (us.foldl (fun t p => unitStep fpc t p.1)
          { initState with inFeatures := true }) := by
    rw [processLines, fcLines, List.foldl_append, foldl_idle fpc pre initState rfl hpre,
      List.foldl_cons, processLine_marker fpc initState mline hm, List.foldl_append,
      fold_unitLines fpc us _ hus rfl rfl]
  have hfin : processLines fpc (fcLines pre mline us cl post) =
      writeChunk { us.foldl (fun t p => unitStep fpc t p.1)
          { initState with inFeatures := true } with inFeatures := false } := by
    rw [h0, List.foldl_cons, processLine_closer fpc _ cl hclm
      (fold_unitStep_fields fpc us { initState with inFeatures := true }).1 hcl]
    exact foldl_idle fpc post _ (writeChunk_fields _).2.2 hpost
  refine ⟨?_, retained_filterMap (us.map Prod.fst), ?_,
    fun c hc => processLines_chunksOk fpc _ c hc⟩
  · rw [hfin, (writeChunk_account _).1]
    have hacc := fold_unitStep_account fpc us { initState with inFeatures := true }
    simpa [initState, concatFeatures] using hacc
  · rw [hfin]
    have hidx : idxOk (us.foldl (fun t p => unitStep fpc t p.1)
        { initState with inFeatures := true }) :=
      fold_unitStep_idxOk fpc us { initState with inFeatures := true } ⟨rfl, rfl⟩
    have hidx2 : idxOk { us.foldl (fun t p => unitStep fpc t p.1)
        { initState with inFeatures := true } with inFeatures := false } :=
      ⟨hidx.1, hidx.2⟩
    exact (writeChunk_idxOk _ hidx2).2

/-- Witness for c1_chunks_preserve_document_order: one degenerate but
accepted Feature between the marker and the closer. -/
theorem c1_chunks_preserve_document_order_witness :
    concatFeatures
        (processLines 2 (fcLines [] markerLine [(c6Feature, false)] [']'] [])).chunks =
        retained ([(c6Feature, false)].map Prod.fst) ∧
      retained ([(c6Feature, false)].map Prod.fst) =
        ([(c6Feature, false)].map Prod.fst).filterMap
          (fun u => if featureOk u then optimizeFeature u else none) ∧
      (processLines 2 (fcLines [] markerLine [(c6Feature, false)] [']'] [])).chunks.map
          Chunk.idx =
        List.range
          (processLines 2 (fcLines [] markerLine [(c6Feature, false)] [']'] [])).chunks.length ∧
      ∀ c ∈ (processLines 2 (fcLines [] markerLine [(c6Feature, false)] [']'] [])).chunks,
        0 < c.features.length ∧ c.count = c.features.length :=
  c1_chunks_preserve_document_order 2 [] [] markerLine [']'] [(c6Feature, false)]
    (by decide) (by decide) (by decide) (by decide) (by decide) (by decide)

/-- A brace-balanced line that is not valid JSON: JSON.parse throws inside
the try/catch and nothing is emitted. -/
def junkLine : List Char := ['{', '"', 'b', 'a', 'd', '"', ':', '}']

/-- A truncated object line: the brace it opens is never closed on its own
line. -/
def truncLine : List Char := ['{', '"', 'b', 'a', 'd', '"', ':']

theorem handleComplete_noParse {fpc : Nat} {s : ProcState}
    (hp : parseJson (if s.currentFeature.getLast? = some ','
        then s.currentFeature.dropLast else s.currentFeature) = none) :
    handleComplete fpc s = { s with currentFeature := [] } := by
  simp only [handleComplete, hp]

theorem scan_junk (fpc : Nat) (s : ProcState) (hd : s.braceDepth = 0) :
    junkLine.foldl (scanChar fpc) s = { s with currentFeature := [] } := by
  have hstep1 : scanChar fpc s '{' =
      { s with currentFeature := ['{'], braceDepth := 1 } := by
    rw [scanChar, if_pos ⟨rfl, hd⟩]
  have hcb : scanChar fpc
      { s with currentFeature := ['{'] ++ ['"', 'b', 'a', 'd', '"', ':'],
               braceDepth := 1 } '}' =
      { s with currentFeature := [] } := by
    rw [scanChar, if_neg (by simp), if_neg (by simp), if_pos ⟨rfl, by simp⟩,
      if_pos (by simp)]
    show handleComplete fpc
        { s with currentFeature := ['{', '"', 'b', 'a', 'd', '"', ':', '}'],
                 braceDepth := 0 } = _
    have hp : parseJson
        (if (['{', '"', 'b', 'a', 'd', '"', ':', '}'] : List Char).getLast? = some ','
          then (['{', '"', 'b', 'a', 'd', '"', ':', '}'] : List Char).dropLast
          else ['{', '"', 'b', 'a', 'd', '"', ':', '}']) = none := by decide
    rw [@handleComplete_noParse fpc
      { s with currentFeature := ['{', '"', 'b', 'a', 'd', '"', ':', '}'],
               braceDepth := 0 } hp, ← hd]
  have hshape : junkLine =
      '{' :: ((['"', 'b', 'a', 'd', '"', ':'] : List Char) ++ ['}']) := rfl
  rw [hshape, List.foldl_cons, hstep1, List.foldl_append,
    scanChars_plain (['"', 'b', 'a', 'd', '"', ':'] : List Char) _ (by decide) (by simp),
    List.foldl_cons, List.foldl_nil]
  exact hcb

theorem processLine_junk (fpc : Nat) (s : ProcState) (hs : s.inFeatures = true)
    (hd : s.braceDepth = 0) :
    processLine fpc s junkLine = { s with currentFeature := [] } := by
  rw [processLine_scan fpc s junkLine (by decide) hs (by decide),
    show jsTrim junkLine = junkLine from by decide]
  exact scan_junk fpc s hd

theorem processLine_unitO (fpc : Nat) (u : Json) (b : Bool) (s : ProcState)
    (hobj : Json.isObjJ u = true) (hw : wfJ u = true)
    (hm : isMarker (unitLine u b) = false)
    (hs : s.inFeatures = true) (hd : s.braceDepth = 0) :
    processLine fpc s (unitLine u b) = unitStep fpc s u := by
  rcases hp : u with _ | b' | ⟨m, k⟩ | cs | xs | fs
  · rw [hp] at hobj; simp [Json.isObjJ] at hobj
  · rw [hp] at hobj; simp [Json.isObjJ] at hobj
  · rw [hp] at hobj; simp [Json.isObjJ] at hobj
  · rw [hp] at hobj; simp [Json.isObjJ] at hobj
  · rw [hp] at hobj; simp [Json.isObjJ] at hobj
  · rw [hp] at hw hm
    exact processLine_unit fpc fs b s hw hm hs hd

set_option maxRecDepth 8000 in
/-- C2 counterexample: the claim promises that one truncated feature
object between two valid Feature objects yields exactly the 2 valid
features; with the truncated unit \x7b"bad": the scanner's brace depth never
returns to 0 before the next feature, which is absorbed into the junk
accumulator and lost, so only 1 feature is emitted, not 2. -/
theorem c2_truncated_not_recovered :
    (concatFeatures (processLines 10
        [markerLine, unitLine c4Point true, truncLine,
          unitLine c4Point false, [']']]).chunks).length = 1 ∧
      (processLines 10
        [markerLine, unitLine c4Point true, truncLine,
          unitLine c4Point false, [']']]).featureCount = 1 :=
  ⟨by decide, by decide⟩

/-- C2 (amended): a brace-BALANCED malformed unit (here \x7b"bad":\x7d, which
JSON.parse rejects) between two wellformed kept Feature units is skipped
locally — the parse error is swallowed, nothing is emitted for it,
scanning continues — and exactly the two surrounding features' optimized
images are emitted, in order; a truncated (brace-unbalanced) unit is NOT
recovered from: the following valid feature is absorbed and lost (see the
counterexample). No exception escapes: every run is a total fold. -/
theorem c2_balanced_malformed_skipped (fpc : Nat) (u1 u2 : Json) (b1 b2 : Bool)
    (hobj1 : Json.isObjJ u1 = true) (hobj2 : Json.isObjJ u2 = true)
    (h1 : wfJ u1 = true) (h2 : wfJ u2 = true)
    (hm1 : isMarker (unitLine u1 b1) = false)
    (hm2 : isMarker (unitLine u2 b2) = false)
    (hk1 : featureOk u1 = true) (hk2 : featureOk u2 = true)
    (ho1 : (optimizeFeature u1).isSome = true)
    (ho2 : (optimizeFeature u2).isSome = true) :
    concatFeatures (processLines fpc
        [markerLine, unitLine u1 b1, junkLine, unitLine u2 b2, [']']]).chunks
      = emitsOf u1 ++ emitsOf u2 ∧
    (concatFeatures (processLines fpc
        [markerLine, unitLine u1 b1, junkLine, unitLine u2 b2, [']']]).chunks).length
      = 2 := by
  have hmain : concatFeatures (processLines fpc
      [markerLine, unitLine u1 b1, junkLine, unitLine u2 b2, [']']]).chunks
      = emitsOf u1 ++ emitsOf u2 := by
    rw [processLines, List.foldl_cons,
      processLine_marker fpc initState markerLine (by decide),
      List.foldl_cons,
      processLine_unitO fpc u1 b1 _ hobj1 h1 hm1 rfl rfl,
      List.foldl_cons,
      processLine_junk fpc _ (by simp [unitStep_fields, initState]) (by simp [unitStep_fields, initState]),
      List.foldl_cons,
      processLine_unitO fpc u2 b2 _ hobj2 h2 hm2 (by simp [unitStep_fields, initState])
        (by simp [unitStep_fields, initState]),
      List.foldl_cons,
      processLine_closer fpc _ [']'] (by decide) (by simp [unitStep_fields, initState]) (by decide),
      List.foldl_nil,
      (writeChunk_account _).1]
    simp [unitStep_account, concatFeatures, initState]
  obtain ⟨o1, hopt1⟩ := Option.isSome_iff_exists.mp ho1
  obtain ⟨o2, hopt2⟩ := Option.isSome_iff_exists.mp ho2
  refine ⟨hmain, ?_⟩
  rw [hmain]
  simp [emitsOf, hk1, hk2, hopt1, hopt2]

set_option maxRecDepth 8000 in
/-- Witness for c2_balanced_malformed_skipped: a Point feature on either
side of the balanced junk line. -/
theorem c2_balanced_malformed_skipped_witness :
    concatFeatures (processLines 10
        [markerLine, unitLine c4Point true, junkLine,
          unitLine c4Point false, [']']]).chunks
      = emitsOf c4Point ++ emitsOf c4Point ∧
    (concatFeatures (processLines 10
        [markerLine, unitLine c4Point true, junkLine,
          unitLine c4Point false, [']']]).chunks).length
      = 2 :=
  c2_balanced_malformed_skipped 10 c4Point c4Point true false (by decide) (by decide)
    (by decide) (by decide) (by decide) (by decide) (by decide) (by decide)
    (by decide) (by decide)

/-- Fields of a Feature whose geometry type string has n characters: its
serialized text grows without bound in n. -/
def bigFF (n : Nat) : JsonFields :=
  .cons ['t', 'y', 'p', 'e'] (.str ['F', 'e', 'a', 't', 'u', 'r', 'e'])
    (.cons ['g', 'e', 'o', 'm', 'e', 't', 'r', 'y']
      (.obj (.cons ['t', 'y', 'p', 'e'] (.str (List.replicate n 'a'))
        (.cons ['c', 'o', 'o', 'r', 'd', 'i', 'n', 'a', 't', 'e', 's']
          (.arr (.cons (.str ['x']) .nil)) .nil))) .nil)

/-- The Feature itself. -/
def bigFeat (n : Nat) : Json := .obj (bigFF n)

/-- Its optimized image: the oversized geometry type string is copied
verbatim into the output. -/
def bigOpt (n : Nat) : Json :=
  .obj (.cons "type".toList (.str "Feature".toList)
    (.cons "geometry".toList
      (.obj (.cons "type".toList (.str (List.replicate n 'a'))
        (.cons "coordinates".toList (.arr (.cons (.str ['x']) .nil)) .nil)))
      (.cons "properties".toList c4Props .nil)))

/-- Serialized text before the geometry object. -/
def c8P : List Char :=
  ['"', 't', 'y', 'p', 'e', '"', ':', '"', 'F', 'e', 'a', 't', 'u', 'r', 'e', '"',
   ',', '"', 'g', 'e', 'o', 'm', 'e', 't', 'r', 'y', '"', ':']

/-- Serialized text between the geometry brace and the big string. -/
def c8R : List Char := ['"', 't', 'y', 'p', 'e', '"', ':', '"']

/-- Serialized text after the big string. -/
def c8S : List Char :=
  ['"', ',', '"', 'c', 'o', 'o', 'r', 'd', 'i', 'n', 'a', 't', 'e', 's', '"', ':',
   '[', '"', 'x', '"', ']', '}', '}']

/-- c8S without its final closing brace. -/
def c8T : List Char :=
  ['"', ',', '"', 'c', 'o', 'o', 'r', 'd', 'i', 'n', 'a', 't', 'e', 's', '"', ':',
   '[', '"', 'x', '"', ']', '}']

theorem bigLine_shape (n : Nat) : unitLine (bigFeat n) false =
    '{' :: (c8P ++ ('{' :: (c8R ++ (List.replicate n 'a' ++ c8S)))) := by
  simp [unitLine, bigFeat, bigFF, ser, serFields, serFTail, serItems, serITail,
    c8P, c8R, c8S]

theorem bigLine_shape2 (n : Nat) : unitLine (bigFeat n) false =
    '{' :: ((c8P ++ ('{' :: (c8R ++ (List.replicate n 'a' ++ c8T)))) ++ ['}']) := by
  rw [bigLine_shape, show c8S = c8T ++ ['}'] from rfl]
  simp [List.append_assoc]

theorem bigLine_len (n : Nat) : n ≤ (unitLine (bigFeat n) false).length := by
  rw [bigLine_shape]
  simp only [List.length_cons, List.length_append, List.length_replicate]
  omega

theorem bigFeat_wf (n : Nat) : wfJ (bigFeat n) = true := by
  have hrep : ∀ m : Nat, (List.replicate m 'a').all okChar = true := by
    intro m
    induction m with
    | zero => rfl
    | succ k ih => rw [List.replicate_succ, List.all_cons, ih]; rfl
  simp [bigFeat, bigFF, wfJ, wfF, wfL, okChar, hrep n]

theorem bigFeat_opt (n : Nat) : optimizeFeature (bigFeat n) = some (bigOpt n) := rfl

theorem bigFeat_ok (n : Nat) : featureOk (bigFeat n) = true := rfl

theorem startsW_mem : ∀ (nd hay : List Char), startsW nd hay = true →
    ∀ c ∈ nd, c ∈ hay
  | [], _, _, c, hc => absurd hc (List.not_mem_nil c)
  | _ :: _, [], h, _, _ => by simp [startsW] at h
  | a :: as, b :: bs, h, c, hc => by
      rw [startsW, Bool.and_eq_true] at h
      obtain ⟨hab, hrest⟩ := h
      rcases List.mem_cons.mp hc with rfl | hc2
      · exact List.mem_cons.mpr (Or.inl (of_decide_eq_true hab))
      · exact List.mem_cons_of_mem b (startsW_mem as bs hrest c hc2)

theorem containsSub_mem : ∀ (nd hay : List Char), containsSub nd hay = true →
    ∀ c ∈ nd, c ∈ hay
  | nd, [], h, c, hc => by
      rw [containsSub] at h
      rw [List.isEmpty_iff] at h
      subst h
      exact absurd hc (List.not_mem_nil c)
  | nd, b :: bs, h, c, hc => by
      rw [containsSub, Bool.or_eq_true] at h
      rcases h with h1 | h2
      · exact startsW_mem nd (b :: bs) h1 c hc
      · exact List.mem_cons_of_mem b (containsSub_mem nd bs h2 c hc)

theorem isMarker_of_no_f {l : List Char} (hf : 'f' ∉ l) : isMarker l = false := by
  cases hm : isMarker l
  · rfl
  · rw [isMarker, Bool.and_eq_true] at hm
    exact absurd (containsSub_mem _ l hm.1 'f' (by decide)) hf

theorem no_f_big (n : Nat) : 'f' ∉ unitLine (bigFeat n) false := by
  rw [bigLine_shape]
  intro hmem
  simp [c8P, c8R, c8S, List.mem_replicate] at hmem

theorem inspChar_start {s : Insp.InspState} (hd : s.braceDepth = 0) :
    Insp.inspChar s '{' = { s with currentFeature := ['{'], braceDepth := 1 } := by
  rw [Insp.inspChar, if_pos ⟨rfl, hd⟩]

theorem inspChar_open {s : Insp.InspState} (hd : 0 < s.braceDepth) :
    Insp.inspChar s '{' =
      { s with currentFeature := s.currentFeature ++ ['{'],
               braceDepth := s.braceDepth + 1 } := by
  rw [Insp.inspChar, if_neg (fun h => by omega), if_pos ⟨rfl, hd⟩]

theorem insp_fits : ∀ (cs : List Char) (s : Insp.InspState),
    (∀ c ∈ cs, c ≠ '{' ∧ c ≠ '}') → 0 < s.braceDepth →
    s.currentFeature.length + cs.length ≤ 10000000 →
    cs.foldl Insp.inspChar s = { s with currentFeature := s.currentFeature ++ cs }
  | [], s, _, _, _ => by simp
  | c :: tl, s, hok, hd, hlen => by
      have hc := hok c (by simp)
      have hstep : Insp.inspChar s c =
          { s with currentFeature := s.currentFeature ++ [c] } := by
        rw [Insp.inspChar, if_neg (fun h => hc.1 h.1), if_neg (fun h => hc.1 h.1),
          if_neg (fun h => hc.2 h.1), if_pos hd, if_pos (by
            simp only [List.length_cons] at hlen; omega)]
      rw [List.foldl_cons, hstep,
        insp_fits tl { s with currentFeature := s.currentFeature ++ [c] }
          (fun x hx => hok x (by simp [hx])) (by simpa using hd)
          (by simp at hlen ⊢; omega)]
      simp

theorem insp_idle : ∀ (cs : List Char) (s : Insp.InspState),
    (∀ c ∈ cs, c ≠ '{') → s.braceDepth = 0 →
    cs.foldl Insp.inspChar s = s
  | [], _, _, _ => rfl
  | c :: tl, s, hok, hd => by
      have hstep : Insp.inspChar s c = s := by
        rw [Insp.inspChar, if_neg (fun h => hok c (by simp) h.1),
          if_neg (fun h => by simp [hd] at h), if_neg (fun h => by simp [hd] at h),
          if_neg (by omega)]
      rw [List.foldl_cons, hstep]
      exact insp_idle tl s (fun x hx => hok x (by simp [hx])) hd

theorem insp_cross : ∀ (m : Nat) (s : Insp.InspState),
    0 < s.braceDepth → s.currentFeature.length ≤ 10000000 →
    10000000 < s.currentFeature.length + m →
    (List.replicate m 'a').foldl Insp.inspChar s =
      { s with currentFeature := [], braceDepth := 0 }
  | 0, s, _, hle, hcross => absurd hcross (by omega)
  | m + 1, s, hd, hle, hcross => by
      by_cases hfit : s.currentFeature.length < 10000000
      · have hstep : Insp.inspChar s 'a' =
            { s with currentFeature := s.currentFeature ++ ['a'] } := by
          rw [Insp.inspChar, if_neg (by simp), if_neg (by simp), if_neg (by simp),
            if_pos hd, if_pos hfit]
        rw [List.replicate_succ, List.foldl_cons, hstep,
          insp_cross m { s with currentFeature := s.currentFeature ++ ['a'] }
            (by simpa using hd) (by simp; omega) (by simp; omega)]
      · have hstep : Insp.inspChar s 'a' =
            { s with currentFeature := [], braceDepth := 0 } := by
          rw [Insp.inspChar, if_neg (by simp), if_neg (by simp), if_neg (by simp),
            if_pos hd, if_neg hfit]
        rw [List.replicate_succ, List.foldl_cons, hstep]
        exact insp_idle (List.replicate m 'a') _
          (fun x hx => by rw [List.eq_of_mem_replicate hx]; decide) rfl

theorem insp_big_line (n : Nat) (s : Insp.InspState) (hd : s.braceDepth = 0)
    (hn : 10000000 < n) :
    (unitLine (bigFeat n) false).foldl Insp.inspChar s =
      { s with currentFeature := [], braceDepth := 0 } := by
  rw [bigLine_shape, List.foldl_cons, inspChar_start hd, List.foldl_append,
    insp_fits c8P _ (by decide) (by simp) (by simp [c8P]),
    List.foldl_cons, inspChar_open (by simp), List.foldl_append,
    insp_fits c8R _ (by decide) (by simp) (by simp [c8P, c8R]),
    List.foldl_append,
    insp_cross n _ (by simp) (by simp [c8P, c8R]) (by simp [c8P, c8R]; omega),
    insp_idle c8S _ (by decide) rfl]

theorem c8_pre_run (n : Nat) :
    concatFeatures (processLines 1
        [markerLine, unitLine (bigFeat n) false, [']']]).chunks = [bigOpt n] := by
  rw [processLines, List.foldl_cons,
    processLine_marker 1 initState markerLine (by decide),
    List.foldl_cons,
    processLine_unitO 1 (bigFeat n) false _ rfl (bigFeat_wf n)
      (isMarker_of_no_f (no_f_big n)) rfl rfl,
    List.foldl_cons,
    processLine_closer 1 _ [']'] (by decide) (by simp [unitStep_fields, initState])
      (by decide),
    List.foldl_nil,
    (writeChunk_account _).1]
  have hemit : emitsOf (bigFeat n) = [bigOpt n] := by
    rw [emitsOf, bigFeat_ok n, if_pos rfl, bigFeat_opt n]
    rfl
  show concatFeatures
      (unitStep 1 { initState with inFeatures := true } (bigFeat n)).chunks ++
    (unitStep 1 { initState with inFeatures := true } (bigFeat n)).currentChunk
      = [bigOpt n]
  rw [unitStep_account 1 { initState with inFeatures := true } (bigFeat n), hemit]
  simp [initState, concatFeatures]

set_option maxRecDepth 8000 in
theorem c8_insp_run (n : Nat) (hn : 10000000 < n) :
    (Insp.inspLines [markerLine, unitLine (bigFeat n) false,
        unitLine c4Point false, [']']]).featureCount = 1 := by
  have hm1 : Insp.inspLine Insp.initInsp markerLine =
      { Insp.initInsp with inFeatures := true } := by
    rw [Insp.inspLine, if_pos (by decide)]
  have htrim : jsTrim (unitLine (bigFeat n) false) = unitLine (bigFeat n) false := by
    rw [bigLine_shape2]
    exact jsTrim_sandwich '{' '}' _ (by decide) (by decide)
  have hb : Insp.inspLine { Insp.initInsp with inFeatures := true }
      (unitLine (bigFeat n) false) = { Insp.initInsp with inFeatures := true } := by
    rw [Insp.inspLine, if_neg (by simp [isMarker_of_no_f (no_f_big n)]),
      if_neg (by simp), if_neg (by rw [htrim, bigLine_shape]; simp [isCloser_brace])]
    exact insp_big_line n _ rfl hn
  rw [Insp.inspLines, List.foldl_cons, hm1, List.foldl_cons, hb]
  decide

/-- C8 counterexample: the streaming extractor that writes chunks
(preprocessor.js processRegion) has NO size ceiling: a Feature whose
serialized text exceeds 10000000 characters is accumulated whole, parsed,
optimized and written into an output chunk — its oversized geometry type
string verbatim — against the claim that an oversized feature's
accumulator is discarded and it appears in no output chunk. -/
theorem c8_oversized_feature_emitted :
    concatFeatures (processLines 1
        [markerLine, unitLine (bigFeat 10000001) false, [']']]).chunks
      = [bigOpt 10000001] ∧
    10000000 < (unitLine (bigFeat 10000001) false).length := by
  refine ⟨c8_pre_run 10000001, ?_⟩
  have h := bigLine_len 10000001
  omega

/-- C8 (amended): the 10 MB accumulator ceiling exists only in the file
inspector (file-inspector.js inspectRegion): there a plain character
arriving while the accumulator holds 10000000 characters discards the
accumulator and resets brace depth to 0, so an oversized feature is
dropped (never counted) and processing continues to the next feature
without error; the chunk-writing extractor of preprocessor.js has no such
guard and emits the oversized feature into an output chunk. -/
theorem c8_size_guard_inspector_only (n : Nat) (hn : 10000000 < n) :
    (Insp.inspLines [markerLine, unitLine (bigFeat n) false,
        unitLine c4Point false, [']']]).featureCount = 1 ∧
      concatFeatures (processLines 1
        [markerLine, unitLine (bigFeat n) false, [']']]).chunks = [bigOpt n] :=
  ⟨c8_insp_run n hn, c8_pre_run n⟩

/-- Witness for c8_size_guard_inspector_only just above the ceiling. -/
theorem c8_size_guard_inspector_only_witness :
    (Insp.inspLines [markerLine, unitLine (bigFeat 10000001) false,
        unitLine c4Point false, [']']]).featureCount = 1 ∧
      concatFeatures (processLines 1
        [markerLine, unitLine (bigFeat 10000001) false, [']']]).chunks
        = [bigOpt 10000001] :=
  c8_size_guard_inspector_only 10000001 (by decide)

end GeoProc
